import Mathlib

/-!
Verification of the Net puzzle backend (`src/net.c`).

The C program is shallowly embedded: the per-cell `unsigned char` arrays
become `List ℕ` indexed by `y * width + x` (exactly the C `index` macro),
the direction bit macros become functions on `ℕ`, the `tree234` ordered
container (an external collaborator; its implementation is not part of
`src/`) becomes a sorted duplicate-free list of `(x, y, direction)`
triples with the same comparison function `xyd_cmp`, and the seeded
random number generator (`random_init` / `random_upto`, also not part of
`src/`) is modelled from the spec as a deterministic pure function of the
seed string.  Machine integers are modelled as `ℕ` (all reachable values
are tiny; the RNG reduces modulo `2^64` explicitly); pixel coordinates in
`make_move` are `ℤ` as in C.  `NULL` returns become `Option.none`.
-/

set_option maxRecDepth 8192

namespace Net

/-! ## Direction bitfields and rotation macros (net.c lines 13-34) -/

/-- Direction bit `R` (net.c line 14). -/
def R : ℕ := 0x01

/-- Direction bit `U` (net.c line 15). -/
def U : ℕ := 0x02

/-- Direction bit `L` (net.c line 16). -/
def L : ℕ := 0x04

/-- Direction bit `D` (net.c line 17). -/
def D : ℕ := 0x08

/-- The `LOCKED` tile flag (net.c line 18). -/
def LOCKED : ℕ := 0x10

/-- The four direction bits in the order the C loops iterate them
(`for (d = 1; d < 0x10; d <<= 1)`). -/
def dirs : List ℕ := [1, 2, 4, 8]

/-- Anticlockwise rotation macro `A` (net.c line 21). -/
def A (x : ℕ) : ℕ := ((x &&& 0x07) <<< 1) ||| ((x &&& 0x08) >>> 3)

/-- Clockwise rotation macro `C` (net.c line 22). -/
def C (x : ℕ) : ℕ := ((x &&& 0x0E) >>> 1) ||| ((x &&& 0x01) <<< 3)

/-- Flip (180 degrees) macro `F` (net.c line 23). -/
def F (x : ℕ) : ℕ := ((x &&& 0x0C) >>> 2) ||| ((x &&& 0x03) <<< 2)

/-- General rotation macro `ROT` (net.c lines 24-26). -/
def ROT (x n : ℕ) : ℕ :=
  if n &&& 3 = 0 then x
  else if n &&& 3 = 1 then A x
  else if n &&& 3 = 2 then F x
  else C x

/-- Bit count macro `COUNT` (net.c lines 33-34). -/
def COUNT (x : ℕ) : ℕ :=
  ((x &&& 0x08) >>> 3) + ((x &&& 0x04) >>> 2) + ((x &&& 0x02) >>> 1) + (x &&& 0x01)

/-- Drawing constant `TILE_SIZE` (net.c line 36). -/
def TILE_SIZE : ℕ := 32

/-- Drawing constant `TILE_BORDER` (net.c line 37). -/
def TILE_BORDER : ℕ := 1

/-- Drawing constant `WINDOW_OFFSET` (net.c line 38). -/
def WINDOW_OFFSET : ℕ := 16

/-! ## The `OFFSET` macro (net.c lines 53-55)

`OFFSET` computes `x2 = (x1 + width + X(dir)) % width` and
`y2 = (y1 + height + Y(dir)) % height` where `X`/`Y` are the unit
displacements of net.c lines 29-30 (`X(R)=+1, X(L)=-1, Y(D)=+1, Y(U)=-1`,
`0` otherwise).  Since all quantities are non-negative we fold the
displacement into the added `width`/`height` term. -/

/-- The x component of the `OFFSET` macro: `(x + width + X(d)) % width`. -/
def offX (w x d : ℕ) : ℕ :=
  (x + (if d = 1 then w + 1 else if d = 4 then w - 1 else w)) % w

/-- The y component of the `OFFSET` macro: `(y + height + Y(d)) % height`. -/
def offY (h y d : ℕ) : ℕ :=
  (y + (if d = 8 then h + 1 else if d = 2 then h - 1 else h)) % h

/-- The `index` macro's flat array index `y * width + x` (net.c line 57). -/
def idx (w x y : ℕ) : ℕ := y * w + x

/-- Cells are `(x, y)` coordinate pairs. -/
abbrev Cell := ℕ × ℕ

/-- `OFFSET` acting on a cell pair. -/
def stepCell (w h : ℕ) (c : Cell) (d : ℕ) : Cell := (offX w c.1 d, offY h c.2 d)

/-- Read of a per-cell array through the `index` macro, with the C
array's contents defaulting to `0` out of range (in-range accesses are
the only reachable ones). -/
def cellAt (w : ℕ) (a : List ℕ) (c : Cell) : ℕ := a.getD (idx w c.1 c.2) 0

/-- `a[i] |= v`, the write pattern used throughout net.c. -/
def orAt (a : List ℕ) (i v : ℕ) : List ℕ := a.set i (a.getD i 0 ||| v)

/-- `a[i] = v`. -/
def setAt (a : List ℕ) (i v : ℕ) : List ℕ := a.set i v

/-! ## The tree234 collaborator (net.c lines 61-90, tree234 not in src/)

`xyd_cmp` orders `struct xyd` by `x`, then `y`, then `direction`
(net.c lines 65-81).  The ordered container is modelled as a list kept
sorted by that order; `add234` is sorted insertion, `delpos234 i` removes
the element at sorted position `i`, `find234`/`del234` look up and erase
by key equality.  All entries the program stores are distinct triples, so
duplicate handling never matters. -/

/-- The `(x, y, direction)` triples stored in the tree234 containers
(net.c lines 61-63). -/
structure Xyd where
  x : ℕ
  y : ℕ
  d : ℕ
deriving DecidableEq, Repr

/-- Strict comparison implementing `xyd_cmp` (net.c lines 65-81). -/
def xydLt (a b : Xyd) : Bool :=
  Nat.blt a.x b.x ||
    (Nat.beq a.x b.x && (Nat.blt a.y b.y || (Nat.beq a.y b.y && Nat.blt a.d b.d)))

/-- `add234`: sorted insertion by `xyd_cmp`. -/
def insert234 (e : Xyd) : List Xyd → List Xyd
  | [] => [e]
  | a :: t => if xydLt e a then e :: a :: t else a :: insert234 e t

/-- `del234`: erase the first element equal to the key. -/
def del234 (e : Xyd) : List Xyd → List Xyd
  | [] => []
  | a :: t => if a = e then t else a :: del234 e t

/-- The remainder of the list after `delpos234` removes position `i`. -/
def delpos (l : List Xyd) (i : ℕ) : List Xyd := l.take i ++ l.drop (i + 1)

/-! ## The deterministic RNG (random.c, not in src/)

Modelled from the spec: "Seeded by an arbitrary byte string; exposes:
draw a bounded uniform integer in `[0, n)` ... the same seed always
reproduces the same sequence of draws" (spec section 4.2).  The concrete
SHA-1 based generator of `random.c` is absent from `src/`, so any pure
deterministic stream is a faithful model; we use a 64-bit linear
congruential generator seeded from the seed string's bytes. -/

/-- The RNG state modulus `2^64`. -/
def rngM : ℕ := 2 ^ 64

/-- Modelled from the spec: the opaque `random_state` of `random.c`. -/
structure Rng where
  s : ℕ
deriving DecidableEq, Repr

/-- Modelled from the spec: one step of the deterministic generator. -/
def rngNext (r : Rng) : Rng :=
  ⟨(r.s * 6364136223846793005 + 1442695040888963407) % rngM⟩

/-- Modelled from the spec: `random_upto(rs, n)` draws a value in
`[0, n)` and advances the generator state. -/
def random_upto (r : Rng) (n : ℕ) : ℕ × Rng :=
  let r' := rngNext r
  ((r'.s >>> 33) % n, r')

/-- Modelled from the spec: `random_init(seed, strlen(seed))` seeds the
generator deterministically from the bytes of the seed string. -/
def random_init (seed : String) : Rng :=
  ⟨(seed.data.map Char.toNat).foldl (fun a b => (a * 33 + b + 1) % rngM) 5381⟩

/-! ## Game parameters and state (net.c lines 40-51) -/

/-- `struct game_params` (net.c lines 40-45).  The C `float
barrier_probability` is modelled as a rational. -/
structure GameParams where
  width : ℕ
  height : ℕ
  wrapping : Bool
  barrier_probability : ℚ

/-- `struct game_state` (net.c lines 47-51). -/
structure GameState where
  width : ℕ
  height : ℕ
  wrapping : Bool
  completed : Bool
  tiles : List ℕ
  barriers : List ℕ
deriving DecidableEq, Repr

/-! ## Border barrier initialization (net.c lines 144-153)

The C code reads, for a non-wrapping game:
```
for (x = 0; x < state->width; x++) {
    barrier(state, x, 0) |= U;
    barrier(state, x, state->height-1) |= D;
}
for (y = 0; y < state->height; y++) {
    barrier(state, y, 0) |= L;
    barrier(state, y, state->width-1) |= R;
}
```
Note the second loop passes `y` as the *x* argument of the `barrier`
macro, so `barrier(state, y, 0)` is array index `0*width + y` and
`barrier(state, y, state->width-1)` is array index `(width-1)*width + y`.
The embedding reproduces these indices exactly. -/

/-- The border-barrier initialization loops, writes modelled like C
(`List.set` is a no-op on an out-of-range index; see
`borderInitChecked` for the bounds-checked variant). -/
def borderInit (w h : ℕ) (b : List ℕ) : List ℕ :=
  let b1 := (List.range w).foldl
    (fun acc x => orAt (orAt acc (idx w x 0) U) (idx w x (h - 1)) D) b
  (List.range h).foldl
    (fun acc y => orAt (orAt acc (idx w y 0) L) (idx w y (w - 1)) R) b1

/-- `a[i] |= v` with an explicit bounds check: `none` models the C
undefined behaviour of an out-of-range write. -/
def orAtChecked (a : List ℕ) (i v : ℕ) : Option (List ℕ) :=
  if i < a.length then some (a.set i (a.getD i 0 ||| v)) else none

/-- The border-barrier initialization loops with every array write
bounds-checked; `none` means some write was out of `[0, width*height)`. -/
def borderInitChecked (w h : ℕ) (b : List ℕ) : Option (List ℕ) :=
  ((List.range w).foldlM
      (fun acc x => do
        let acc1 ← orAtChecked acc (idx w x 0) U
        orAtChecked acc1 (idx w x (h - 1)) D) b).bind
    fun b1 =>
      (List.range h).foldlM
        (fun acc y => do
          let acc1 ← orAtChecked acc (idx w y 0) L
          orAtChecked acc1 (idx w y (w - 1)) R) b1

/-! ## Spanning-tree grid construction (net.c lines 202-323) -/

/-- The mutable state of the grid-construction loop: the tile array, the
`possibilities` tree and the RNG. -/
structure GenSt where
  tiles : List ℕ
  poss : List Xyd
  rng : Rng
deriving Repr

/-- Removal of all possibilities pointing at the tile just moved into
(net.c lines 261-286): for each direction `d`, delete
`(OFFSET(x2,y2,d), F(d))`. -/
def possTargetsRemove (w h x2 y2 : ℕ) (P : List Xyd) : List Xyd :=
  dirs.foldl (fun P d => del234 ⟨offX w x2 d, offY h y2 d, F d⟩ P) P

/-- Addition of the new possibilities out of the tile just moved into
(net.c lines 288-319), with the same skip conditions in the same
order: the direction just used, off-board directions when not wrapping,
and directions leading to an already used tile. -/
def addOut (w h : ℕ) (wrap : Bool) (t : List ℕ) (x2 y2 d2 : ℕ) (P : List Xyd) :
    List Xyd :=
  dirs.foldl (fun P d =>
    if d = d2 then P
    else if wrap = false ∧ ((d = U ∧ y2 = 0) ∨ (d = D ∧ y2 = h - 1) ∨
        (d = L ∧ x2 = 0) ∨ (d = R ∧ x2 = w - 1)) then P
    else if t.getD (idx w (offX w x2 d) (offY h y2 d)) 0 ≠ 0 then P
    else insert234 ⟨x2, y2, d⟩ P) P

/-- The body of one construction iteration once the drawn possibility
`e` has been removed, leaving `P1`: the two half-connection writes, the
T-piece removal (net.c lines 242-259), the loop-avoidance removals and
the new additions. -/
def genExec (w h : ℕ) (wrap : Bool) (tiles : List ℕ) (P1 : List Xyd) (r : Rng)
    (e : Xyd) : GenSt :=
  let x2 := offX w e.x e.d
  let y2 := offY h e.y e.d
  let d2 := F e.d
  let t2 := orAt (orAt tiles (idx w e.x e.y) e.d) (idx w x2 y2) d2
  let P2 :=
    if COUNT (t2.getD (idx w e.x e.y) 0) = 3 then
      del234 ⟨e.x, e.y, 0x0F ^^^ t2.getD (idx w e.x e.y) 0⟩ P1
    else P1
  let P3 := possTargetsRemove w h x2 y2 P2
  let P4 := addOut w h wrap t2 x2 y2 d2 P3
  ⟨t2, P4, r⟩

/-- Case split of one construction iteration on the possibility found at
the drawn index.  (The `none` branch is never taken: the loop only runs
when `count234 > 0`.) -/
def genStepGo (w h : ℕ) (wrap : Bool) (s : GenSt) : Option Xyd → GenSt
  | none => { s with rng := (random_upto s.rng s.poss.length).2 }
  | some e =>
    genExec w h wrap s.tiles (delpos s.poss (random_upto s.rng s.poss.length).1)
      (random_upto s.rng s.poss.length).2 e

/-- One iteration of the construction loop (net.c lines 208-320): draw a
random index, remove that possibility, and run `genExec` on it. -/
def genStep (w h : ℕ) (wrap : Bool) (s : GenSt) : GenSt :=
  genStepGo w h wrap s s.poss[(random_upto s.rng s.poss.length).1]?

/-- The `while (count234(possibilities) > 0)` loop (net.c line 208),
fuel-indexed; `new_game` supplies enough fuel for the loop to reach the
empty possibility set (proved below). -/
def genLoop (w h : ℕ) (wrap : Bool) : ℕ → GenSt → GenSt
  | 0, s => s
  | fuel + 1, s => if s.poss.isEmpty then s else genLoop w h wrap fuel (genStep w h wrap s)

/-- The initial construction state (net.c lines 202-206): blank tiles and
the four possibilities out of the centre cell, in `xyd_cmp` order. -/
def initGen (w h : ℕ) (seed : String) : GenSt :=
  ⟨List.replicate (w * h) 0,
    [⟨w / 2, h / 2, 1⟩, ⟨w / 2, h / 2, 2⟩, ⟨w / 2, h / 2, 4⟩, ⟨w / 2, h / 2, 8⟩],
    random_init seed⟩

/-- The whole spanning-tree construction phase of `new_game`. -/
def genPhase (w h : ℕ) (wrap : Bool) (seed : String) : GenSt :=
  genLoop w h wrap (w * h + 1) (initGen w h seed)

/-- The unshuffled tile grid produced by the spanning-tree construction
phase of `new_game`, before the shuffle of net.c lines 342-348. -/
def preShuffleTiles (w h : ℕ) (wrap : Bool) (seed : String) : List ℕ :=
  (genPhase w h wrap seed).tiles

/-! ## Barrier candidates, shuffle, and barrier placement
(net.c lines 325-404) -/

/-- The barrier-candidate scan (net.c lines 328-337): for each cell in
the (possibly wrap-truncated) range, record the rightward and downward
edges that are not pipe connections. -/
def candScan (w h : ℕ) (wrap : Bool) (t : List ℕ) : List Xyd :=
  (List.range (h - (if wrap then 0 else 1))).foldl (fun P y =>
    (List.range (w - (if wrap then 0 else 1))).foldl (fun P x =>
      let P1 := if t.getD (idx w x y) 0 &&& R = 0 then insert234 ⟨x, y, R⟩ P else P
      if t.getD (idx w x y) 0 &&& D = 0 then insert234 ⟨x, y, D⟩ P1 else P1) P) []

/-- The grid shuffle (net.c lines 342-348): one `random_upto(rs, 4)` draw
per cell in raster order, rotating that cell's tile. -/
def shufflePhase (w h : ℕ) (wrap : Bool) (t : List ℕ) (r : Rng) : List ℕ × Rng :=
  (List.range (h - (if wrap then 0 else 1))).foldl (fun acc y =>
    (List.range (w - (if wrap then 0 else 1))).foldl (fun acc x =>
      let rr := random_upto acc.2 4
      (setAt acc.1 (idx w x y) (ROT (acc.1.getD (idx w x y) 0) rr.1), rr.2)) acc)
    (t, r)

/-- The state of the barrier-placement loop: the remaining candidates,
the barrier array and the RNG. -/
structure BarSt where
  cands : List Xyd
  barriers : List ℕ
  rng : Rng
deriving Repr

/-- One iteration of the barrier-placement loop (net.c lines 367-392):
draw a random candidate, remove it, and set the barrier bit on both
sides of the edge.  (The `cands = []` branch is unreachable because
`nbarriers <= count234(barriers)`.) -/
def barStepGo (w h : ℕ) (s : BarSt) : Option Xyd → BarSt
  | none => { s with rng := (random_upto s.rng s.cands.length).2 }
  | some e =>
    ⟨delpos s.cands (random_upto s.rng s.cands.length).1,
      orAt (orAt s.barriers (idx w e.x e.y) e.d)
        (idx w (offX w e.x e.d) (offY h e.y e.d)) (F e.d),
      (random_upto s.rng s.cands.length).2⟩

def barStep (w h : ℕ) (s : BarSt) : BarSt :=
  barStepGo w h s s.cands[(random_upto s.rng s.cands.length).1]?

/-- The `while (nbarriers > 0)` loop, which runs exactly `nbarriers`
iterations. -/
def barLoop (w h : ℕ) : ℕ → BarSt → BarSt
  | 0, s => s
  | n + 1, s => barLoop w h n (barStep w h s)

/-! ## `new_game` (net.c lines 118-409) -/

/-- `new_game`: border barriers, spanning-tree construction, barrier
candidate scan, shuffle, and barrier placement, consuming RNG draws in
exactly that order.  `nbarriers = params->barrier_probability *
count234(barriers)` truncates the product to an integer as the C
float-to-int conversion does for a probability in `[0,1]`. -/
def new_game (p : GameParams) (seed : String) : GameState :=
  let w := p.width
  let h := p.height
  let barr0 := List.replicate (w * h) 0
  let barr1 := if p.wrapping then barr0 else borderInit w h barr0
  let g := genPhase w h p.wrapping seed
  let cands := candScan w h p.wrapping g.tiles
  let sh := shufflePhase w h p.wrapping g.tiles g.rng
  let nb := (p.barrier_probability * (cands.length : ℚ)).floor.toNat
  let fin := barLoop w h nb ⟨cands, barr1, sh.2⟩
  ⟨w, h, p.wrapping, false, sh.1, fin.barriers⟩

/-! ## `compute_active` (net.c lines 446-493)

The todo container again reuses `xyd_cmp`, and `delpos234(todo, 0)` pops
the least element, i.e. the head of the sorted list.  Note the C code
adds the centre cell to the todo list but never writes `1` to its slot
of the `active` array. -/

/-- The body of the per-direction scan inside the `compute_active` loop
(net.c lines 469-486), threading the active array and todo list. -/
def caBody (w h : ℕ) (tiles barriers : List ℕ) (x1 y1 : ℕ)
    (acc : List ℕ × List Xyd) : List ℕ × List Xyd :=
  dirs.foldl (fun acc d =>
    let x2 := offX w x1 d
    let y2 := offY h y1 d
    if tiles.getD (idx w x1 y1) 0 &&& d ≠ 0 ∧
        tiles.getD (idx w x2 y2) 0 &&& F d ≠ 0 ∧
        barriers.getD (idx w x1 y1) 0 &&& d = 0 ∧
        acc.1.getD (idx w x2 y2) 0 = 0 then
      (setAt acc.1 (idx w x2 y2) 1, insert234 ⟨x2, y2, 0⟩ acc.2)
    else acc) acc

/-- The `while ((xyd = delpos234(todo, 0)) != NULL)` loop of
`compute_active`, fuel-indexed (the caller supplies more fuel than the
loop can ever pop). -/
def caLoop (w h : ℕ) (tiles barriers : List ℕ) :
    ℕ → List ℕ → List Xyd → List ℕ
  | 0, act, _ => act
  | _ + 1, act, [] => act
  | fuel + 1, act, e :: rest =>
    let r := caBody w h tiles barriers e.x e.y (act, rest)
    caLoop w h tiles barriers fuel r.1 r.2

/-- `compute_active` (net.c lines 446-493): flood fill from the centre
cell along connected, unbarred edges.  As in the C code the centre cell
is put on the todo list without its own active flag being set. -/
def compute_active (st : GameState) : List ℕ :=
  caLoop st.width st.height st.tiles st.barriers
    (st.width * st.height + 2)
    (List.replicate (st.width * st.height) 0)
    [⟨st.width / 2, st.height / 2, 0⟩]

/-! ## `make_move` (net.c lines 498-583)

The button codes live in `puzzles.h`, which is not part of `src/`.
Modelled from the spec: three distinct button identifiers
(primary/secondary/auxiliary); their numeric values are irrelevant. -/

/-- Modelled from the spec: the primary (rotate anticlockwise) button. -/
def LEFT_BUTTON : ℕ := 512

/-- Modelled from the spec: the auxiliary (lock toggle) button. -/
def MIDDLE_BUTTON : ℕ := 513

/-- Modelled from the spec: the secondary (rotate clockwise) button. -/
def RIGHT_BUTTON : ℕ := 514

/-- `make_move` (net.c lines 498-583).  `none` models the C `NULL`
return ("no move made").  Pixel coordinates are `ℤ` as in C; after the
non-negativity test they are converted to `ℕ`, matching C's truncating
division on non-negative operands.  Note the border-gap test divides the
*tile index* `tx`/`ty` by `TILE_SIZE`, exactly as the C source does. -/
def make_move (st : GameState) (px py : ℤ) (button : ℕ) : Option GameState :=
  if button ≠ LEFT_BUTTON ∧ button ≠ MIDDLE_BUTTON ∧ button ≠ RIGHT_BUTTON then
    none
  else
    let x : ℤ := px - (WINDOW_OFFSET : ℤ)
    let y : ℤ := py - (WINDOW_OFFSET : ℤ)
    if x < 0 ∨ y < 0 then none
    else
      let tx := x.toNat / TILE_SIZE
      let ty := y.toNat / TILE_SIZE
      if tx ≥ st.width ∨ ty ≥ st.height then none
      else if tx % TILE_SIZE ≥ TILE_SIZE - TILE_BORDER ∨
          ty % TILE_SIZE ≥ TILE_SIZE - TILE_BORDER then none
      else if button = MIDDLE_BUTTON then
        some { st with tiles := (setAt st.tiles (idx st.width tx ty)
                (st.tiles.getD (idx st.width tx ty) 0 ^^^ LOCKED)) }
      else if st.tiles.getD (idx st.width tx ty) 0 &&& LOCKED ≠ 0 then none
      else
        let orig := st.tiles.getD (idx st.width tx ty) 0
        let ret : GameState := { st with tiles := (setAt st.tiles (idx st.width tx ty)
              (if button = LEFT_BUTTON then A orig else C orig)) }
        let act := compute_active ret
        let complete := (List.range (st.width * st.height)).all
          (fun i => act.getD i 0 != 0)
        some (if complete then { ret with completed := true } else ret)

/-! ## Cell geometry and bit-level vocabulary used by the analysis -/

/-- Direction bit `d` is present in mask `t`. -/
def bitIn (d t : ℕ) : Prop := t &&& d ≠ 0

instance decBitIn (d t : ℕ) : Decidable (bitIn d t) :=
  inferInstanceAs (Decidable (t &&& d ≠ 0))

/-- The cell lies on the `width x height` board. -/
def validCell (w h : ℕ) (c : Cell) : Prop := c.1 < w ∧ c.2 < h

instance decValidCell (w h : ℕ) (c : Cell) : Decidable (validCell w h c) :=
  inferInstanceAs (Decidable (c.1 < w ∧ c.2 < h))

/-- The centre cell `(width/2, height/2)` where the generator and the
flood fill start. -/
def ctr (w h : ℕ) : Cell := (w / 2, h / 2)

/-! ## The symmetric-connection flood-fill relation

This is the reachability notion of the spec's spanning-tree property:
a step from `a` to its `OFFSET` neighbour `b` in direction `d` is taken
iff `a`'s mask contains `d` and `b`'s mask contains the 180-degree
reflection of `d`; barriers are ignored. -/

/-- One symmetric-connection step on a tile array. -/
def connStep (w h : ℕ) (T : List ℕ) (a b : Cell) : Prop :=
  ∃ d ∈ dirs, bitIn d (cellAt w T a) ∧ bitIn (F d) (cellAt w T b) ∧
    b = stepCell w h a d

/-- Reachability under the symmetric-connection flood fill that ignores
barriers. -/
def ReachConn (w h : ℕ) (T : List ℕ) (a b : Cell) : Prop :=
  Relation.ReflTransGen (connStep w h T) a b

/-- Any set of cells that contains `a` and is closed under
symmetric-connection steps contains everything reachable from `a`. -/
theorem reach_mem_closed {w h : ℕ} {T : List ℕ} (S : List Cell)
    (hS : ∀ a ∈ S, ∀ b, connStep w h T a b → b ∈ S) {a b : Cell}
    (hr : ReachConn w h T a b) (ha : a ∈ S) : b ∈ S := by
  induction hr with
  | refl => exact ha
  | tail _ hstep ih => exact hS _ ih _ hstep

/-! ## Claim C9: the rotation algebra -/

/-- C9: for every 4-bit connection mask, four anticlockwise rotations
(`A`, the left-button rotation of `make_move`) and four clockwise
rotations (`C`, the right-button rotation) are the identity, and the two
rotations are mutual inverses; hence rotating a tile four times with the
same button, or once with each button, restores its mask. -/
theorem rotation_cycle_c9 : ∀ m : ℕ, m < 16 →
    A (A (A (A m))) = m ∧ C (C (C (C m))) = m ∧ C (A m) = m ∧ A (C m) = m := by
  decide

/-- Witness for `rotation_cycle_c9` at the concrete mask `5`. -/
theorem rotation_cycle_c9_witness : 5 < 16 ∧
    (A (A (A (A 5))) = 5 ∧ C (C (C (C 5))) = 5 ∧ C (A 5) = 5 ∧ A (C 5) = 5) :=
  ⟨by decide, rotation_cycle_c9 5 (by decide)⟩

/-! ## Claim C3: the border-barrier initialization is transposed -/

/-- C3 failing input: on a non-wrapping 4x4 board the claim says the
left-column cell `(0,1)` receives the `L` barrier bit, while top-row cell
`(1,0)` receives only `U`.  The code's second loop transposes its
arguments (`barrier(state, y, 0) |= L`), so `(0,1)` receives no barrier
bit at all and the `L` bit lands on the top-row cell `(1,0)` instead. -/
theorem border_misplaced_c3 :
    (borderInit 4 4 (List.replicate 16 0)).getD (idx 4 0 1) 0 = 0 ∧
    (borderInit 4 4 (List.replicate 16 0)).getD (idx 4 1 0) 0 &&& L ≠ 0 := by
  decide

/-! ## Claim C4: the transposed border loop writes out of bounds -/

/-- C4 failing input: with `width = 4 > height = 3` the write
`barrier(state, y, state->width-1) |= R` addresses flat index
`(width-1)*width + y = 12 + y >= width*height = 12`, so the
bounds-checked embedding of the border loops fails. -/
theorem border_oob_c4 :
    borderInitChecked 4 3 (List.replicate 12 0) = none := by decide

/-! ## Claim C5: generation is deterministic -/

/-- C5: two `new_game` runs with identical params and identical seed
strings produce identical tile arrays and identical barrier arrays.  In
the embedding `new_game` is a pure function of `(params, seed)` — the
RNG (modelled from the spec, `random.c` not being in `src/`) is seeded
only from the seed string and threaded explicitly, so the result depends
on nothing else. -/
theorem new_game_deterministic_c5 (p : GameParams) (s1 s2 : String)
    (h : s1 = s2) :
    (new_game p s1).tiles = (new_game p s2).tiles ∧
    (new_game p s1).barriers = (new_game p s2).barriers := by
  subst h; exact ⟨rfl, rfl⟩

/-- Witness for `new_game_deterministic_c5` on a concrete game. -/
theorem new_game_deterministic_c5_witness :
    (new_game ⟨3, 3, false, 0⟩ "123").tiles = (new_game ⟨3, 3, false, 0⟩ "123").tiles ∧
    (new_game ⟨3, 3, false, 0⟩ "123").barriers = (new_game ⟨3, 3, false, 0⟩ "123").barriers :=
  new_game_deterministic_c5 ⟨3, 3, false, 0⟩ "123" "123" rfl

/-! ## Claim C7: the border-gap test is broken -/

/-- C7 failing input: pixel `(47, 16)` is `(31, 0)` relative to the
playfield, and `31 % TILE_SIZE = 31 >= TILE_SIZE - TILE_BORDER`, i.e.
the click lands in the inter-tile border gap of tile `(0,0)` and the
claim requires `make_move` to return no new state.  Because the code
tests `tx % TILE_SIZE` (the tile index) instead of the pixel offset, the
click is accepted and a rotation is performed. -/
theorem border_gap_accepted_c7 :
    (31 : ℕ) % TILE_SIZE ≥ TILE_SIZE - TILE_BORDER ∧
    (make_move ⟨3, 3, false, false, List.replicate 9 0, List.replicate 9 0⟩
        47 16 LEFT_BUTTON).isSome = true := by decide

/-! ## Claim C10: the centre cell is not marked active -/

/-- C10 failing input: on a state whose tiles are all blank,
`compute_active` returns an all-zero map; in particular the centre cell
`(width/2, height/2)` is not marked active, although the claim (and the
traversal's own starting point) requires it to be. -/
theorem center_unmarked_c10 :
    (compute_active ⟨3, 3, false, false, List.replicate 9 0, List.replicate 9 0⟩).getD
      (idx 3 (3 / 2) (3 / 2)) 0 = 0 := by decide

/-! ## Claim C2, counterexample: the shuffled grid is not symmetric -/

/-- C2 counterexample: in the state returned by `new_game` for a 3x3
non-wrapping board with seed "123", cell `(0,0)`'s mask contains `R` but
its `R`-neighbour `(1,0)`'s mask does not contain `F R = L`: the shuffle
step rotates tiles independently, destroying the pairing invariant. -/
theorem shuffled_asymmetric_c2 :
    (new_game ⟨3, 3, false, 0⟩ "123").tiles.getD (idx 3 0 0) 0 &&& R ≠ 0 ∧
    (new_game ⟨3, 3, false, 0⟩ "123").tiles.getD
      (idx 3 (offX 3 0 R) (offY 3 0 R)) 0 &&& F R = 0 := by
  have ht : (new_game ⟨3, 3, false, 0⟩ "123").tiles = [3, 9, 8, 2, 7, 14, 1, 6, 2] := by
    decide
  rw [ht]
  decide

/-! ## Claim C1, counterexample: the shuffled grid is not connected -/

/-- C1 counterexample: in the state returned by `new_game` for a 3x3
non-wrapping board with seed "123", cell `(0,0)` is not reachable from
the centre cell `(1,1)` under the symmetric-connection flood fill that
ignores barriers: the shuffle step disconnects the spanning tree. -/
theorem shuffled_disconnected_c1 :
    ¬ ReachConn 3 3 (new_game ⟨3, 3, false, 0⟩ "123").tiles (3 / 2, 3 / 2) (0, 0) := by
  have ht : (new_game ⟨3, 3, false, 0⟩ "123").tiles = [3, 9, 8, 2, 7, 14, 1, 6, 2] := by
    decide
  rw [ht]
  intro hr
  have hmem : ((0, 0) : Cell) ∈ [((1, 1) : Cell), (2, 1), (1, 0), (2, 0), (2, 2)] := by
    refine reach_mem_closed _ ?_ hr (by decide)
    intro a ha b hb
    obtain ⟨d, hd, h1, h2, hb⟩ := hb
    subst hb
    fin_cases ha <;> fin_cases hd <;> revert h1 h2 <;> decide
  exact absurd hmem (by decide)

/-! ## Claim C6: raising the barrier probability only adds barriers -/

/-- Pointwise bitmask inclusion between two per-cell arrays. -/
def bitsSubset (a b : List ℕ) : Prop := ∀ i, a.getD i 0 ||| b.getD i 0 = b.getD i 0

theorem bitsSubset_refl (a : List ℕ) : bitsSubset a a := fun _ => Nat.or_self _

theorem bitsSubset_trans {a b c : List ℕ} (h1 : bitsSubset a b)
    (h2 : bitsSubset b c) : bitsSubset a c := by
  intro i
  conv_lhs => rw [← h2 i, ← Nat.or_assoc, h1 i]
  exact h2 i

/-- Reading through `getD` after `List.set`. -/
theorem getD_set (l : List ℕ) (i j v : ℕ) :
    (l.set i v).getD j 0 = if i = j ∧ j < l.length then v else l.getD j 0 := by
  by_cases hij : i = j
  · subst hij
    by_cases hi : i < l.length
    · simp [List.getD, List.getElem?_set, hi]
    · simp [List.getD, List.set_eq_of_length_le (Nat.le_of_not_lt hi), hi]
  · simp [List.getD, List.getElem?_set, hij]

/-- `a[i] |= v` only adds bits. -/
theorem bitsSubset_orAt (l : List ℕ) (i v : ℕ) : bitsSubset l (orAt l i v) := by
  intro j
  unfold orAt
  rw [getD_set]
  split
  · next hc =>
      obtain ⟨rfl, _⟩ := hc
      rw [← Nat.or_assoc, Nat.or_self]
  · exact Nat.or_self _

/-- Unfolding lemma for the `none` branch of `barStepGo`. -/
theorem barStepGo_none (w h : ℕ) (s : BarSt) :
    barStepGo w h s none = { s with rng := (random_upto s.rng s.cands.length).2 } :=
  rfl

/-- Unfolding lemma for the `some` branch of `barStepGo`. -/
theorem barStepGo_some (w h : ℕ) (s : BarSt) (e : Xyd) :
    barStepGo w h s (some e) =
      ⟨delpos s.cands (random_upto s.rng s.cands.length).1,
        orAt (orAt s.barriers (idx w e.x e.y) e.d)
          (idx w (offX w e.x e.d) (offY h e.y e.d)) (F e.d),
        (random_upto s.rng s.cands.length).2⟩ :=
  rfl

/-- One barrier-placement step only adds barrier bits. -/
theorem bitsSubset_barStepGo (w h : ℕ) (s : BarSt) (o : Option Xyd) :
    bitsSubset s.barriers (barStepGo w h s o).barriers := by
  cases o with
  | none => rw [barStepGo_none]; exact bitsSubset_refl _
  | some e =>
    rw [barStepGo_some]
    exact bitsSubset_trans (bitsSubset_orAt _ _ _) (bitsSubset_orAt _ _ _)

/-- One barrier-placement step only adds barrier bits. -/
theorem bitsSubset_barStep (w h : ℕ) (s : BarSt) :
    bitsSubset s.barriers (barStep w h s).barriers :=
  bitsSubset_barStepGo w h s _

/-- The barrier-placement loop only adds barrier bits. -/
theorem bitsSubset_barLoop (w h n : ℕ) (s : BarSt) :
    bitsSubset s.barriers (barLoop w h n s).barriers := by
  induction n generalizing s with
  | zero => exact bitsSubset_refl _
  | succ n ih => exact bitsSubset_trans (bitsSubset_barStep w h s) (ih _)

/-- Splitting the barrier-placement loop. -/
theorem barLoop_add (w h m n : ℕ) (s : BarSt) :
    barLoop w h (m + n) s = barLoop w h n (barLoop w h m s) := by
  induction m generalizing s with
  | zero => rw [Nat.zero_add]; rfl
  | succ m ih => rw [Nat.succ_add]; exact ih (barStep w h s)

/-- C6: with the board, wrapping flag and seed fixed, if `p1 ≤ p2` then
every barrier bit placed by the `p1` run is also placed by the `p2` run
(as array-wise bitmask inclusion; the runs share the border bits, the
shuffled grid, the candidate list and the RNG state entering barrier
placement, and the `p2` run simply executes more iterations of the same
deterministic placement loop). -/
theorem barrier_monotone_c6 (w h : ℕ) (wrap : Bool) (seed : String)
    (p1 p2 : ℚ) (hp : p1 ≤ p2) :
    bitsSubset (new_game ⟨w, h, wrap, p1⟩ seed).barriers
      (new_game ⟨w, h, wrap, p2⟩ seed).barriers := by
  have hmono : ∀ c : ℕ, (p1 * (c : ℚ)).floor.toNat ≤ (p2 * (c : ℚ)).floor.toNat := by
    intro c
    exact Int.toNat_le_toNat (Int.floor_le_floor
      (mul_le_mul_of_nonneg_right hp (by positivity)))
  show bitsSubset (barLoop w h _ _).barriers (barLoop w h _ _).barriers
  set s0 : BarSt := ⟨candScan w h wrap (genPhase w h wrap seed).tiles,
    if wrap then List.replicate (w * h) 0
      else borderInit w h (List.replicate (w * h) 0),
    (shufflePhase w h wrap (genPhase w h wrap seed).tiles
      (genPhase w h wrap seed).rng).2⟩ with hs0
  set n1 := (p1 * ((candScan w h wrap (genPhase w h wrap seed).tiles).length : ℚ)).floor.toNat
  set n2 := (p2 * ((candScan w h wrap (genPhase w h wrap seed).tiles).length : ℚ)).floor.toNat
  have h12 : n1 ≤ n2 := hmono _
  have : barLoop w h n2 s0 = barLoop w h (n2 - n1) (barLoop w h n1 s0) := by
    rw [← barLoop_add, Nat.add_sub_cancel' h12]
  rw [this]
  exact bitsSubset_barLoop _ _ _ _

/-- Witness for `barrier_monotone_c6`: probabilities `0 ≤ 1` on the 3x3
seed-"123" board, read at array index 4. -/
theorem barrier_monotone_c6_witness :
    (new_game ⟨3, 3, false, 0⟩ "123").barriers.getD 4 0 |||
      (new_game ⟨3, 3, false, 1⟩ "123").barriers.getD 4 0 =
    (new_game ⟨3, 3, false, 1⟩ "123").barriers.getD 4 0 :=
  barrier_monotone_c6 3 3 false "123" 0 1 (by norm_num) 4

/-! ## Direction and step arithmetic

Small facts about the four direction bits, the `F` reflection, and the
`OFFSET` step on the (possibly wrapping) board. -/

theorem mem_dirs {d : ℕ} : d ∈ dirs ↔ d = 1 ∨ d = 2 ∨ d = 4 ∨ d = 8 := by
  simp [dirs]

theorem F_mem_dirs {d : ℕ} (hd : d ∈ dirs) : F d ∈ dirs := by
  rcases mem_dirs.1 hd with rfl | rfl | rfl | rfl <;> decide

theorem F_F {d : ℕ} (hd : d ∈ dirs) : F (F d) = d := by
  rcases mem_dirs.1 hd with rfl | rfl | rfl | rfl <;> decide

theorem F_inj_dirs {d e : ℕ} (hd : d ∈ dirs) (he : e ∈ dirs) (h : F d = F e) :
    d = e := by
  rcases mem_dirs.1 hd with rfl | rfl | rfl | rfl <;>
    rcases mem_dirs.1 he with rfl | rfl | rfl | rfl <;> revert h <;> decide

theorem offX_one_eq {w x : ℕ} (hx : x < w) :
    offX w x 1 = if x + 1 = w then 0 else x + 1 := by
  show (x + (w + 1)) % w = _
  rw [show x + (w + 1) = (x + 1) + w by omega, Nat.add_mod_right]
  by_cases hxw : x + 1 = w
  · simp [hxw]
  · rw [if_neg hxw, Nat.mod_eq_of_lt (by omega)]

theorem offX_four_eq {w x : ℕ} (hx : x < w) :
    offX w x 4 = if x = 0 then w - 1 else x - 1 := by
  show (x + (w - 1)) % w = _
  by_cases hx0 : x = 0
  · subst hx0
    rw [if_pos rfl, Nat.zero_add, Nat.mod_eq_of_lt (by omega)]
  · rw [if_neg hx0, show x + (w - 1) = (x - 1) + w by omega, Nat.add_mod_right,
      Nat.mod_eq_of_lt (by omega)]

theorem offX_other {w x d : ℕ} (h1 : d ≠ 1) (h4 : d ≠ 4) (hx : x < w) :
    offX w x d = x := by
  show (x + (if d = 1 then w + 1 else if d = 4 then w - 1 else w)) % w = x
  rw [if_neg h1, if_neg h4, Nat.add_mod_right, Nat.mod_eq_of_lt hx]

theorem offY_eight_eq {h y : ℕ} (hy : y < h) :
    offY h y 8 = if y + 1 = h then 0 else y + 1 := by
  show (y + (h + 1)) % h = _
  rw [show y + (h + 1) = (y + 1) + h by omega, Nat.add_mod_right]
  by_cases hyh : y + 1 = h
  · simp [hyh]
  · rw [if_neg hyh, Nat.mod_eq_of_lt (by omega)]

theorem offY_two_eq {h y : ℕ} (hy : y < h) :
    offY h y 2 = if y = 0 then h - 1 else y - 1 := by
  show (y + (h - 1)) % h = _
  by_cases hy0 : y = 0
  · subst hy0
    rw [if_pos rfl, Nat.zero_add, Nat.mod_eq_of_lt (by omega)]
  · rw [if_neg hy0, show y + (h - 1) = (y - 1) + h by omega, Nat.add_mod_right,
      Nat.mod_eq_of_lt (by omega)]

theorem offY_other {h y d : ℕ} (h8 : d ≠ 8) (h2 : d ≠ 2) (hy : y < h) :
    offY h y d = y := by
  show (y + (if d = 8 then h + 1 else if d = 2 then h - 1 else h)) % h = y
  rw [if_neg h8, if_neg h2, Nat.add_mod_right, Nat.mod_eq_of_lt hy]

theorem stepCell_valid {w h : ℕ} (hw : 0 < w) (hh : 0 < h) (c : Cell) (d : ℕ) :
    validCell w h (stepCell w h c d) :=
  ⟨Nat.mod_lt _ hw, Nat.mod_lt _ hh⟩

theorem offX_lt {w x d : ℕ} (hw : 0 < w) : offX w x d < w := Nat.mod_lt _ hw

theorem offY_lt {h y d : ℕ} (hh : 0 < h) : offY h y d < h := Nat.mod_lt _ hh

theorem offX_one_four {w x : ℕ} (hx : x < w) : offX w (offX w x 1) 4 = x := by
  rw [offX_one_eq hx]
  split
  · rw [offX_four_eq (by omega), if_pos rfl]; omega
  · rw [offX_four_eq (by omega), if_neg (by omega)]; omega

theorem offX_four_one {w x : ℕ} (hx : x < w) : offX w (offX w x 4) 1 = x := by
  rw [offX_four_eq hx]
  split
  · rw [offX_one_eq (by omega), if_pos (by omega)]; omega
  · rw [offX_one_eq (by omega), if_neg (by omega)]; omega

theorem offY_two_eight {h y : ℕ} (hy : y < h) : offY h (offY h y 2) 8 = y := by
  rw [offY_two_eq hy]
  split
  · rw [offY_eight_eq (by omega), if_pos (by omega)]; omega
  · rw [offY_eight_eq (by omega), if_neg (by omega)]; omega

theorem offY_eight_two {h y : ℕ} (hy : y < h) : offY h (offY h y 8) 2 = y := by
  rw [offY_eight_eq hy]
  split
  · rw [offY_two_eq (by omega), if_pos rfl]; omega
  · rw [offY_two_eq (by omega), if_neg (by omega)]; omega

/-- Total characterization of `offX` over an in-range `x`. -/
theorem offX_eq {w x : ℕ} (hx : x < w) (d : ℕ) :
    offX w x d = if d = 1 then (if x + 1 = w then 0 else x + 1)
      else if d = 4 then (if x = 0 then w - 1 else x - 1) else x := by
  by_cases h1 : d = 1
  · subst h1; rw [if_pos rfl]; exact offX_one_eq hx
  · rw [if_neg h1]
    by_cases h4 : d = 4
    · subst h4; rw [if_pos rfl]; exact offX_four_eq hx
    · rw [if_neg h4]; exact offX_other h1 h4 hx

/-- Total characterization of `offY` over an in-range `y`. -/
theorem offY_eq {h y : ℕ} (hy : y < h) (d : ℕ) :
    offY h y d = if d = 8 then (if y + 1 = h then 0 else y + 1)
      else if d = 2 then (if y = 0 then h - 1 else y - 1) else y := by
  by_cases h8 : d = 8
  · subst h8; rw [if_pos rfl]; exact offY_eight_eq hy
  · rw [if_neg h8]
    by_cases h2 : d = 2
    · subst h2; rw [if_pos rfl]; exact offY_two_eq hy
    · rw [if_neg h2]; exact offY_other h8 h2 hy

theorem stepCell_invol {w h : ℕ} {c : Cell} {d : ℕ} (hc : validCell w h c)
    (hd : d ∈ dirs) : stepCell w h (stepCell w h c d) (F d) = c := by
  obtain ⟨hx, hy⟩ := hc
  obtain ⟨x, y⟩ := c
  simp only [stepCell]
  rcases mem_dirs.1 hd with rfl | rfl | rfl | rfl
  · rw [show F 1 = 4 by decide, Prod.mk.injEq]
    exact ⟨offX_one_four hx,
      by rw [offY_other (by decide) (by decide) hy,
        offY_other (by decide) (by decide) hy]⟩
  · rw [show F 2 = 8 by decide, Prod.mk.injEq]
    exact ⟨by rw [offX_other (by decide) (by decide) hx,
        offX_other (by decide) (by decide) hx], offY_two_eight hy⟩
  · rw [show F 4 = 1 by decide, Prod.mk.injEq]
    exact ⟨offX_four_one hx,
      by rw [offY_other (by decide) (by decide) hy,
        offY_other (by decide) (by decide) hy]⟩
  · rw [show F 8 = 2 by decide, Prod.mk.injEq]
    exact ⟨by rw [offX_other (by decide) (by decide) hx,
        offX_other (by decide) (by decide) hx], offY_eight_two hy⟩

/-- On a board at least 3 wide and 3 tall no cell is its own neighbour. -/
theorem stepCell_ne_self {w h : ℕ} (hw : 3 ≤ w) (hh : 3 ≤ h) {c : Cell}
    (hc : validCell w h c) {d : ℕ} (hd : d ∈ dirs) : stepCell w h c d ≠ c := by
  obtain ⟨hx, hy⟩ := hc
  intro heq
  have h1 := congrArg Prod.fst heq
  have h2 := congrArg Prod.snd heq
  simp only [stepCell] at h1 h2
  rcases mem_dirs.1 hd with rfl | rfl | rfl | rfl
  · rw [offX_eq hx] at h1
    split_ifs at h1 <;> omega
  · rw [offY_eq hy] at h2
    split_ifs at h2 <;> omega
  · rw [offX_eq hx] at h1
    split_ifs at h1 <;> omega
  · rw [offY_eq hy] at h2
    split_ifs at h2 <;> omega

/-- Distinct directions lead to distinct neighbours. -/
theorem stepCell_inj_dir {w h : ℕ} (hw : 3 ≤ w) (hh : 3 ≤ h) {c : Cell}
    (hc : validCell w h c) {d e : ℕ} (hd : d ∈ dirs) (he : e ∈ dirs)
    (hne : d ≠ e) : stepCell w h c d ≠ stepCell w h c e := by
  obtain ⟨hx, hy⟩ := hc
  intro heq
  have h1 := congrArg Prod.fst heq
  have h2 := congrArg Prod.snd heq
  simp only [stepCell] at h1 h2
  rcases mem_dirs.1 hd with rfl | rfl | rfl | rfl <;>
    rcases mem_dirs.1 he with rfl | rfl | rfl | rfl
  all_goals
    first
      | exact hne rfl
      | (rw [offX_eq hx, offX_eq hx] at h1
         split_ifs at h1 <;> omega)
      | (rw [offY_eq hy, offY_eq hy] at h2
         split_ifs at h2 <;> omega)

/-- Stepping twice in the same direction never returns to the start. -/
theorem stepCell_double_ne {w h : ℕ} (hw : 3 ≤ w) (hh : 3 ≤ h) {c : Cell}
    (hc : validCell w h c) {d : ℕ} (hd : d ∈ dirs) :
    stepCell w h (stepCell w h c d) d ≠ c := by
  obtain ⟨hx, hy⟩ := hc
  intro heq
  have h1 := congrArg Prod.fst heq
  have h2 := congrArg Prod.snd heq
  simp only [stepCell] at h1 h2
  have hx' : offX w c.1 d < w := offX_lt (by omega)
  have hy' : offY h c.2 d < h := offY_lt (by omega)
  rcases mem_dirs.1 hd with rfl | rfl | rfl | rfl
  · rw [offX_eq hx', offX_eq hx] at h1
    split_ifs at h1 <;> omega
  · rw [offY_eq hy', offY_eq hy] at h2
    split_ifs at h2 <;> omega
  · rw [offX_eq hx', offX_eq hx] at h1
    split_ifs at h1 <;> omega
  · rw [offY_eq hy', offY_eq hy] at h2
    split_ifs at h2 <;> omega

/-- Cancelling a step: `b` is the `d`-neighbour of `a` iff `a` is the
`F d`-neighbour of `b`. -/
theorem stepCell_eq_comm {w h : ℕ} {a b : Cell} {d : ℕ} (ha : validCell w h a)
    (hd : d ∈ dirs) (hab : b = stepCell w h a d) :
    a = stepCell w h b (F d) := by
  subst hab; exact (stepCell_invol ha hd).symm

/-! ## Flat-index arithmetic -/

theorem idx_lt {w h : ℕ} {c : Cell} (hc : validCell w h c) :
    idx w c.1 c.2 < w * h := by
  obtain ⟨hx, hy⟩ := hc
  have h1 : c.2 * w + c.1 < (c.2 + 1) * w := by
    rw [Nat.succ_mul]; omega
  have h2 : (c.2 + 1) * w ≤ h * w := Nat.mul_le_mul_right w hy
  calc idx w c.1 c.2 < (c.2 + 1) * w := h1
    _ ≤ h * w := h2
    _ = w * h := Nat.mul_comm h w

theorem idx_inj {w h : ℕ} {c c' : Cell} (hc : validCell w h c)
    (hc' : validCell w h c') (he : idx w c.1 c.2 = idx w c'.1 c'.2) : c = c' := by
  obtain ⟨hx1, hy1⟩ := hc
  obtain ⟨hx2, hy2⟩ := hc'
  have hw : 0 < w := by omega
  have hx : c.1 = c'.1 := by
    have h1 : (w * c.2 + c.1) % w = (w * c'.2 + c'.1) % w := by
      unfold idx at he
      rw [Nat.mul_comm w c.2, Nat.mul_comm w c'.2, he]
    rwa [Nat.mul_add_mod, Nat.mul_add_mod, Nat.mod_eq_of_lt hx1,
      Nat.mod_eq_of_lt hx2] at h1
  have hy : c.2 = c'.2 := by
    unfold idx at he
    have h2 : c.2 * w = c'.2 * w := by omega
    exact Nat.eq_of_mul_eq_mul_right hw h2
  exact Prod.ext hx hy

/-! ## Array access through `orAt` and `setAt` -/

theorem length_orAt (a : List ℕ) (i v : ℕ) : (orAt a i v).length = a.length :=
  List.length_set a i _

theorem getD_orAt_self {a : List ℕ} {i : ℕ} (v : ℕ) (hi : i < a.length) :
    (orAt a i v).getD i 0 = a.getD i 0 ||| v := by
  unfold orAt; rw [getD_set, if_pos ⟨rfl, hi⟩]

theorem getD_orAt_other {a : List ℕ} {i j : ℕ} (v : ℕ) (hij : i ≠ j) :
    (orAt a i v).getD j 0 = a.getD j 0 := by
  unfold orAt; rw [getD_set, if_neg (fun hcon => hij hcon.1)]

/-- A list of all zeros reads zero everywhere (also out of range). -/
theorem getD_all_zero : ∀ (l : List ℕ), (∀ x ∈ l, x = 0) → ∀ i, l.getD i 0 = 0 := by
  intro l
  induction l with
  | nil => intro _ i; rfl
  | cons b t ih =>
    intro hall i

    cases i with
    | zero => exact hall b (List.mem_cons_self b t)
    | succ j => exact ih (fun x hx => hall x (List.mem_cons_of_mem b hx)) j

theorem cellAt_replicate (w n : ℕ) (c : Cell) :
    cellAt w (List.replicate n 0) c = 0 :=
  getD_all_zero _ (fun _ hx => List.eq_of_mem_replicate hx) _

/-! ## Bounded bit-level facts, by exhaustive check over masks below 16 -/

theorem or_dir_lt16 : ∀ t < 16, ∀ d ∈ dirs, t ||| d < 16 := by decide

theorem bitIn_or_dirs : ∀ t < 16, ∀ d ∈ dirs, ∀ e ∈ dirs,
    (bitIn d (t ||| e) ↔ (bitIn d t ∨ d = e)) := by decide

theorem ne_zero_of_bitIn {d t : ℕ} (hb : bitIn d t) : t ≠ 0 := by
  intro ht; subst ht; exact hb (Nat.zero_and d)

theorem COUNT_or_dirs : ∀ t < 16, ∀ d ∈ dirs, ¬ bitIn d t →
    COUNT (t ||| d) = COUNT t + 1 := by decide

theorem COUNT_le3_or : ∀ t < 16, ∀ d ∈ dirs, COUNT t ≤ 2 →
    COUNT (t ||| d) ≤ 3 := by decide

theorem count3_char : ∀ t < 16, COUNT t = 3 → ∀ d ∈ dirs,
    (¬ bitIn d t ↔ d = 15 ^^^ t) := by decide

theorem bitIn_single_dir : ∀ d ∈ dirs, ∀ e ∈ dirs, (bitIn d e ↔ d = e) := by
  decide

theorem COUNT_dir : ∀ d ∈ dirs, COUNT d = 1 := by decide

theorem dir_lt16 : ∀ d ∈ dirs, d < 16 := by decide

/-! ## Membership and no-duplicates lemmas for the tree234 model -/

theorem mem_insert234 {a e : Xyd} : ∀ {P : List Xyd},
    a ∈ insert234 e P ↔ a = e ∨ a ∈ P := by
  intro P
  induction P with
  | nil => simp [insert234]
  | cons b t ih =>
    unfold insert234
    split
    · simp [List.mem_cons]
    · simp only [List.mem_cons, ih]
      tauto

theorem insert234_nodup {e : Xyd} : ∀ {P : List Xyd}, P.Nodup → e ∉ P →
    (insert234 e P).Nodup := by
  intro P
  induction P with
  | nil => intro _ _; simp [insert234]
  | cons b t ih =>
    intro hP he
    unfold insert234
    split
    · exact List.Nodup.cons he hP
    · rw [List.nodup_cons] at hP ⊢
      refine ⟨?_, ih hP.2 (fun hc => he (List.mem_cons_of_mem b hc))⟩
      intro hb
      rcases mem_insert234.1 hb with rfl | hbt
      · exact he (List.mem_cons_self b t)
      · exact hP.1 hbt

theorem mem_del234_iff {a e : Xyd} : ∀ {P : List Xyd}, P.Nodup →
    (a ∈ del234 e P ↔ a ∈ P ∧ a ≠ e) := by
  intro P
  induction P with
  | nil => intro _; simp [del234]
  | cons b t ih =>
    intro hP
    rw [List.nodup_cons] at hP
    unfold del234
    split
    · next hbe =>
        subst hbe
        simp only [List.mem_cons]
        constructor
        · intro hat
          exact ⟨Or.inr hat, fun hae => hP.1 (hae ▸ hat)⟩
        · rintro ⟨hab | hat, hne⟩
          · exact absurd hab hne
          · exact hat
    · next hbe =>
        simp only [List.mem_cons, ih hP.2]
        constructor
        · rintro (rfl | ⟨hat, hne⟩)
          · exact ⟨Or.inl rfl, hbe⟩
          · exact ⟨Or.inr hat, hne⟩
        · rintro ⟨rfl | hat, hne⟩
          · exact Or.inl rfl
          · exact Or.inr ⟨hat, hne⟩

theorem del234_sublist (e : Xyd) : ∀ (P : List Xyd), List.Sublist (del234 e P) P := by
  intro P
  induction P with
  | nil => exact List.Sublist.refl _
  | cons b t ih =>
    unfold del234
    split
    · exact List.sublist_cons_self b t
    · exact List.Sublist.cons₂ b ih

theorem nodup_del234 {e : Xyd} {P : List Xyd} (hP : P.Nodup) :
    (del234 e P).Nodup := hP.sublist (del234_sublist e P)

theorem delpos_sublist (P : List Xyd) (i : ℕ) : List.Sublist (delpos P i) P := by
  unfold delpos
  have h1 : List.Sublist (P.take i ++ P.drop (i + 1)) (P.take i ++ P.drop i) := by
    refine List.Sublist.append_left ?_ _
    rw [← List.drop_drop]
    exact List.drop_sublist 1 (P.drop i)
  rw [List.take_append_drop i P] at h1
  exact h1

theorem nodup_delpos {P : List Xyd} (hP : P.Nodup) (i : ℕ) :
    (delpos P i).Nodup := hP.sublist (delpos_sublist P i)

theorem delpos_decomp {P : List Xyd} {i : ℕ} {e : Xyd} (hie : P[i]? = some e) :
    P = P.take i ++ e :: P.drop (i + 1) := by
  have hi : i < P.length := by
    by_contra hge
    rw [List.getElem?_eq_none (by omega)] at hie
    exact Option.noConfusion hie
  have he : P[i] = e := by
    have := List.getElem?_eq_getElem hi
    rw [this] at hie
    exact Option.some.inj hie
  conv_lhs => rw [← List.take_append_drop i P]
  rw [List.drop_eq_getElem_cons hi, he]

theorem mem_of_getElem_opt {P : List Xyd} {i : ℕ} {e : Xyd}
    (hie : P[i]? = some e) : e ∈ P := by
  rw [delpos_decomp hie]
  exact List.mem_append_right _ (List.mem_cons_self e _)

theorem nodup_dirs : dirs.Nodup := by decide

theorem mem_delpos_iff {P : List Xyd} {i : ℕ} {e : Xyd} (hP : P.Nodup)
    (hie : P[i]? = some e) {a : Xyd} :
    a ∈ delpos P i ↔ a ∈ P ∧ a ≠ e := by
  have hdec := delpos_decomp hie
  have hP' := hP
  rw [hdec, List.nodup_append] at hP'
  obtain ⟨-, hnd2, hdisj⟩ := hP'
  rw [List.nodup_cons] at hnd2
  have henotake : e ∉ P.take i := fun hc => hdisj hc (List.mem_cons_self e _)
  constructor
  · intro ha
    unfold delpos at ha
    rcases List.mem_append.1 ha with hat | had
    · refine ⟨by rw [hdec]; exact List.mem_append_left _ hat, ?_⟩
      intro hae; subst hae; exact henotake hat
    · refine ⟨by rw [hdec]; exact List.mem_append_right _ (List.mem_cons_of_mem e had), ?_⟩
      intro hae; subst hae; exact hnd2.1 had
  · rintro ⟨haP, hane⟩
    rw [hdec] at haP
    unfold delpos
    rcases List.mem_append.1 haP with hat | had
    · exact List.mem_append_left _ hat
    · rcases List.mem_cons.1 had with rfl | had'
      · exact absurd rfl hane
      · exact List.mem_append_right _ had'

/-! ## The generation-loop invariant: vocabulary -/

/-- A cell counts as reached by the construction: its tile has a
connection bit, or it is the centre (reached from the very start,
before its first bit is written). -/
def usedP (w h : ℕ) (T : List ℕ) (c : Cell) : Prop :=
  cellAt w T c ≠ 0 ∨ c = ctr w h

/-- The direction `d` does not leave the board from `c` (the complement
of the skip conditions of net.c lines 298-307). -/
def legalDir (w h : ℕ) (c : Cell) (d : ℕ) : Prop :=
  (d = 2 → c.2 ≠ 0) ∧ (d = 8 → c.2 ≠ h - 1) ∧
    (d = 4 → c.1 ≠ 0) ∧ (d = 1 → c.1 ≠ w - 1)

/-- Legality of a step, trivially true on a wrapping board. -/
def legalW (w h : ℕ) (wrap : Bool) (c : Cell) (d : ℕ) : Prop :=
  wrap = true ∨ legalDir w h c d

/-- A certificate that the connection graph carried by `T` is a forest
grown outward from the centre: a timestamp function that is bounded,
injective on reached cells, and gives every cell at most one
earlier-stamped neighbour (its parent). -/
def TreeCert (w h : ℕ) (T : List ℕ) : Prop :=
  ∃ tm : Cell → ℕ, ∃ k : ℕ,
    (∀ c, validCell w h c → usedP w h T c → tm c < k) ∧
    (∀ a b, validCell w h a → validCell w h b → usedP w h T a →
      usedP w h T b → tm a = tm b → a = b) ∧
    (∀ c, validCell w h c → ∀ d ∈ dirs, ∀ e ∈ dirs,
      bitIn d (cellAt w T c) → bitIn e (cellAt w T c) →
      tm (stepCell w h c d) < tm c → tm (stepCell w h c e) < tm c → d = e)

/-- The tile array after the two half-connection writes of one
construction iteration (net.c lines 234-236). -/
def execTiles (w h : ℕ) (T : List ℕ) (e : Xyd) : List ℕ :=
  orAt (orAt T (idx w e.x e.y) e.d)
    (idx w (offX w e.x e.d) (offY h e.y e.d)) (F e.d)

/-- The possibility list after the T-piece removal (net.c lines
242-259). -/
def execP2 (w : ℕ) (t2 : List ℕ) (e : Xyd) (P1 : List Xyd) : List Xyd :=
  if COUNT (t2.getD (idx w e.x e.y) 0) = 3 then
    del234 ⟨e.x, e.y, 0x0F ^^^ t2.getD (idx w e.x e.y) 0⟩ P1
  else P1

/-- The possibility list produced by one full construction iteration. -/
def execPoss (w h : ℕ) (wrap : Bool) (T : List ℕ) (P1 : List Xyd) (e : Xyd) :
    List Xyd :=
  addOut w h wrap (execTiles w h T e) (offX w e.x e.d) (offY h e.y e.d) (F e.d)
    (possTargetsRemove w h (offX w e.x e.d) (offY h e.y e.d)
      (execP2 w (execTiles w h T e) e P1))

/-! ## Unfolding equations for the construction step -/

theorem genExec_tiles (w h : ℕ) (wrap : Bool) (T : List ℕ) (P1 : List Xyd)
    (r : Rng) (e : Xyd) : (genExec w h wrap T P1 r e).tiles = execTiles w h T e :=
  rfl

theorem genExec_poss (w h : ℕ) (wrap : Bool) (T : List ℕ) (P1 : List Xyd)
    (r : Rng) (e : Xyd) :
    (genExec w h wrap T P1 r e).poss = execPoss w h wrap T P1 e :=
  rfl

theorem genStepGo_none (w h : ℕ) (wrap : Bool) (s : GenSt) :
    genStepGo w h wrap s none =
      { s with rng := (random_upto s.rng s.poss.length).2 } :=
  rfl

theorem genStepGo_some (w h : ℕ) (wrap : Bool) (s : GenSt) (e : Xyd) :
    genStepGo w h wrap s (some e) =
      genExec w h wrap s.tiles (delpos s.poss (random_upto s.rng s.poss.length).1)
        (random_upto s.rng s.poss.length).2 e :=
  rfl

theorem genStep_eq (w h : ℕ) (wrap : Bool) (s : GenSt) :
    genStep w h wrap s =
      genStepGo w h wrap s s.poss[(random_upto s.rng s.poss.length).1]? :=
  rfl

theorem genLoop_zero (w h : ℕ) (wrap : Bool) (s : GenSt) :
    genLoop w h wrap 0 s = s := rfl

theorem genLoop_succ (w h : ℕ) (wrap : Bool) (f : ℕ) (s : GenSt) :
    genLoop w h wrap (f + 1) s =
      if s.poss.isEmpty then s else genLoop w h wrap f (genStep w h wrap s) :=
  rfl

/-! ## Pointwise reading of the tile writes -/

theorem length_execTiles (w h : ℕ) (T : List ℕ) (e : Xyd) :
    (execTiles w h T e).length = T.length := by
  unfold execTiles
  rw [length_orAt, length_orAt]

theorem cellAt_execTiles {w h : ℕ} (hw : 3 ≤ w) (hh : 3 ≤ h) {T : List ℕ}
    (hlen : T.length = w * h) {e : Xyd} (hex : e.x < w) (hey : e.y < h)
    (hed : e.d ∈ dirs) {c : Cell} (hc : validCell w h c) :
    cellAt w (execTiles w h T e) c =
      if c = (e.x, e.y) then cellAt w T c ||| e.d
      else if c = stepCell w h (e.x, e.y) e.d then cellAt w T c ||| F e.d
      else cellAt w T c := by
  have hc1 : validCell w h (e.x, e.y) := ⟨hex, hey⟩
  have hc2 : validCell w h (stepCell w h (e.x, e.y) e.d) :=
    stepCell_valid (by omega) (by omega) _ _
  have hcne : (e.x, e.y) ≠ stepCell w h (e.x, e.y) e.d :=
    fun hcon => stepCell_ne_self hw hh hc1 hed hcon.symm
  have hi12 : idx w e.x e.y ≠
      idx w (offX w e.x e.d) (offY h e.y e.d) :=
    fun hcon => hcne (idx_inj hc1 hc2 hcon)
  show (execTiles w h T e).getD (idx w c.1 c.2) 0 = _
  unfold execTiles
  by_cases h1 : c = (e.x, e.y)
  · subst h1
    have hne1 : idx w (offX w e.x e.d) (offY h e.y e.d) ≠ idx w e.x e.y :=
      fun hcon => hi12 hcon.symm
    rw [if_pos rfl]
    show (orAt (orAt T (idx w e.x e.y) e.d)
        (idx w (offX w e.x e.d) (offY h e.y e.d)) (F e.d)).getD (idx w e.x e.y) 0 = _
    rw [getD_orAt_other _ hne1,
      getD_orAt_self _ (by rw [hlen]; exact idx_lt hc1)]
    rfl
  · rw [if_neg h1]
    by_cases h2 : c = stepCell w h (e.x, e.y) e.d
    · subst h2
      have hne1 : idx w e.x e.y ≠ idx w (offX w e.x e.d) (offY h e.y e.d) := hi12
      rw [if_pos rfl]
      show (orAt (orAt T (idx w e.x e.y) e.d)
          (idx w (offX w e.x e.d) (offY h e.y e.d)) (F e.d)).getD
          (idx w (offX w e.x e.d) (offY h e.y e.d)) 0 = _
      rw [getD_orAt_self _ (by rw [length_orAt, hlen]; exact idx_lt hc2),
        getD_orAt_other _ hne1]
      rfl
    · have hne2 : idx w (offX w e.x e.d) (offY h e.y e.d) ≠ idx w c.1 c.2 :=
        fun hcon => h2 (idx_inj hc2 hc hcon).symm
      have hne1 : idx w e.x e.y ≠ idx w c.1 c.2 :=
        fun hcon => h1 (idx_inj hc1 hc hcon).symm
      rw [if_neg h2, getD_orAt_other _ hne2, getD_orAt_other _ hne1]
      rfl

/-! ## Membership in the possibility-list pipeline -/

/-- Generic fact about a left fold of conditional insertions: an element
is in the result iff it was in the accumulator or one of the folded keys
inserted it. -/
theorem mem_foldl_ins (g : List Xyd → ℕ → List Xyd) (cond : ℕ → Prop)
    (key : ℕ → Xyd)
    (hg : ∀ P d a, a ∈ g P d ↔ a ∈ P ∨ (cond d ∧ a = key d)) :
    ∀ (l : List ℕ) (P : List Xyd) (a : Xyd),
      a ∈ l.foldl g P ↔ a ∈ P ∨ ∃ d ∈ l, cond d ∧ a = key d := by
  intro l
  induction l with
  | nil => intro P a; simp
  | cons b t ih =>
    intro P a
    rw [List.foldl_cons, ih, hg]
    constructor
    · rintro ((haP | hcond) | ⟨d, hdt, hc, hk⟩)
      · exact Or.inl haP
      · exact Or.inr ⟨b, List.mem_cons_self b t, hcond⟩
      · exact Or.inr ⟨d, List.mem_cons_of_mem b hdt, hc, hk⟩
    · rintro (haP | ⟨d, hdl, hc, hk⟩)
      · exact Or.inl (Or.inl haP)
      · rcases List.mem_cons.1 hdl with rfl | hdt
        · exact Or.inl (Or.inr ⟨hc, hk⟩)
        · exact Or.inr ⟨d, hdt, hc, hk⟩

/-- Generic no-duplicate preservation for the same kind of fold. -/
theorem nodup_foldl_ins (g : List Xyd → ℕ → List Xyd) (cond : ℕ → Prop)
    (key : ℕ → Xyd)
    (hg : ∀ P d a, a ∈ g P d ↔ a ∈ P ∨ (cond d ∧ a = key d))
    (hgn : ∀ P d, P.Nodup → key d ∉ P → (g P d).Nodup)
    (hki : ∀ d d', key d = key d' → d = d') :
    ∀ (l : List ℕ), l.Nodup → ∀ (P : List Xyd), P.Nodup →
      (∀ d ∈ l, key d ∉ P) → (l.foldl g P).Nodup := by
  intro l
  induction l with
  | nil => intro _ P hP _; exact hP
  | cons b t ih =>
    intro hl P hP hout
    rw [List.nodup_cons] at hl
    rw [List.foldl_cons]
    refine ih hl.2 _ (hgn P b hP (hout b (List.mem_cons_self b t))) ?_
    intro d hdt hmem
    rcases (hg P b (key d)).1 hmem with hin | ⟨-, hkeq⟩
    · exact hout d (List.mem_cons_of_mem b hdt) hin
    · exact hl.1 (hki d b hkeq ▸ hdt)

/-- The loop-avoidance removals (net.c lines 261-286) remove exactly the
possibilities pointing at the just-reached cell. -/
theorem mem_possTargetsRemove {w h x2 y2 : ℕ} {P : List Xyd} (hnd : P.Nodup)
    {a : Xyd} :
    a ∈ possTargetsRemove w h x2 y2 P ↔
      a ∈ P ∧ ∀ d ∈ dirs, a ≠ ⟨offX w x2 d, offY h y2 d, F d⟩ := by
  show a ∈ List.foldl (fun P d => del234 ⟨offX w x2 d, offY h y2 d, F d⟩ P) P dirs ↔ _
  have h1 : dirs = [1, 2, 4, 8] := rfl
  rw [h1]
  simp only [List.foldl_cons, List.foldl_nil]
  have n1 : (del234 ⟨offX w x2 1, offY h y2 1, F 1⟩ P).Nodup := nodup_del234 hnd
  have n2 : (del234 ⟨offX w x2 2, offY h y2 2, F 2⟩
      (del234 ⟨offX w x2 1, offY h y2 1, F 1⟩ P)).Nodup := nodup_del234 n1
  have n3 : (del234 ⟨offX w x2 4, offY h y2 4, F 4⟩
      (del234 ⟨offX w x2 2, offY h y2 2, F 2⟩
        (del234 ⟨offX w x2 1, offY h y2 1, F 1⟩ P))).Nodup := nodup_del234 n2
  rw [mem_del234_iff n3, mem_del234_iff n2, mem_del234_iff n1, mem_del234_iff hnd]
  constructor
  · rintro ⟨⟨⟨⟨haP, h1'⟩, h2'⟩, h4'⟩, h8'⟩
    refine ⟨haP, ?_⟩
    intro d hd
    rcases mem_dirs.1 hd with rfl | rfl | rfl | rfl
    · exact h1'
    · exact h2'
    · exact h4'
    · exact h8'
  · rintro ⟨haP, hall⟩
    exact ⟨⟨⟨⟨haP, hall 1 (by decide)⟩, hall 2 (by decide)⟩,
      hall 4 (by decide)⟩, hall 8 (by decide)⟩

theorem nodup_possTargetsRemove {w h x2 y2 : ℕ} {P : List Xyd}
    (hnd : P.Nodup) : (possTargetsRemove w h x2 y2 P).Nodup := by
  show (List.foldl (fun P d => del234 ⟨offX w x2 d, offY h y2 d, F d⟩ P) P dirs).Nodup
  have h1 : dirs = [1, 2, 4, 8] := rfl
  rw [h1]
  simp only [List.foldl_cons, List.foldl_nil]
  exact nodup_del234 (nodup_del234 (nodup_del234 (nodup_del234 hnd)))

/-- The condition under which the add loop of net.c lines 288-319
inserts the possibility `(x2, y2, d)`. -/
def addCond (w h : ℕ) (wrap : Bool) (t : List ℕ) (x2 y2 d2 d : ℕ) : Prop :=
  ¬ d = d2 ∧
    ¬ (wrap = false ∧ ((d = U ∧ y2 = 0) ∨ (d = D ∧ y2 = h - 1) ∨
        (d = L ∧ x2 = 0) ∨ (d = R ∧ x2 = w - 1))) ∧
    ¬ t.getD (idx w (offX w x2 d) (offY h y2 d)) 0 ≠ 0

/-- Membership characterization of one step of the add loop. -/
theorem mem_addOut_step {w h : ℕ} {wrap : Bool} {t : List ℕ} {x2 y2 d2 : ℕ}
    (P : List Xyd) (d : ℕ) (a : Xyd) :
    (a ∈ if d = d2 then P
      else if wrap = false ∧ ((d = U ∧ y2 = 0) ∨ (d = D ∧ y2 = h - 1) ∨
          (d = L ∧ x2 = 0) ∨ (d = R ∧ x2 = w - 1)) then P
      else if t.getD (idx w (offX w x2 d) (offY h y2 d)) 0 ≠ 0 then P
      else insert234 ⟨x2, y2, d⟩ P) ↔
      a ∈ P ∨ (addCond w h wrap t x2 y2 d2 d ∧ a = ⟨x2, y2, d⟩) := by
  unfold addCond
  split
  · next hc =>
      simp only [hc]
      tauto
  · next hc =>
      split
      · next hc2 =>
          simp only [hc2]
          tauto
      · next hc2 =>
          split
          · next hc3 =>
              tauto
          · next hc3 =>
              rw [mem_insert234]
              tauto

theorem mem_addOut {w h : ℕ} {wrap : Bool} {t : List ℕ} {x2 y2 d2 : ℕ}
    {P : List Xyd} {a : Xyd} :
    a ∈ addOut w h wrap t x2 y2 d2 P ↔
      a ∈ P ∨ ∃ d ∈ dirs, addCond w h wrap t x2 y2 d2 d ∧ a = ⟨x2, y2, d⟩ :=
  mem_foldl_ins _ (addCond w h wrap t x2 y2 d2) (fun d => ⟨x2, y2, d⟩)
    (fun P d a => mem_addOut_step P d a) dirs P a

theorem nodup_addOut {w h : ℕ} {wrap : Bool} {t : List ℕ} {x2 y2 d2 : ℕ}
    {P : List Xyd} (hnd : P.Nodup)
    (hout : ∀ d ∈ dirs, (⟨x2, y2, d⟩ : Xyd) ∉ P) :
    (addOut w h wrap t x2 y2 d2 P).Nodup := by
  refine nodup_foldl_ins _ (addCond w h wrap t x2 y2 d2) (fun d => ⟨x2, y2, d⟩)
    (fun P d a => mem_addOut_step P d a) ?_ ?_ dirs nodup_dirs P hnd hout
  · intro P d hP hk
    split
    · exact hP
    · split
      · exact hP
      · split
        · exact hP
        · exact insert234_nodup hP hk
  · intro d d' hk
    exact congrArg Xyd.d hk

/-! ## More small helpers -/

theorem getD_lt16 : ∀ {l : List ℕ}, (∀ t ∈ l, t < 16) → ∀ i, l.getD i 0 < 16 := by
  intro l
  induction l with
  | nil => intro _ i; show (0 : ℕ) < 16; decide
  | cons b t ih =>
    intro hall i
    cases i with
    | zero => exact hall b (List.mem_cons_self b t)
    | succ j => exact ih (fun x hx => hall x (List.mem_cons_of_mem b hx)) j

theorem cellAt_lt16 {w : ℕ} {T : List ℕ} (hr : ∀ t ∈ T, t < 16) (c : Cell) :
    cellAt w T c < 16 := getD_lt16 hr _

theorem range_orAt {l : List ℕ} (hr : ∀ t ∈ l, t < 16) {i d : ℕ}
    (hd : d ∈ dirs) : ∀ t ∈ orAt l i d, t < 16 := by
  intro t ht
  rcases List.mem_or_eq_of_mem_set ht with htl | rfl
  · exact hr t htl
  · exact or_dir_lt16 _ (getD_lt16 hr i) d hd

theorem dir_ne_zero : ∀ d ∈ dirs, d ≠ 0 := by decide

/-- Bits present in `x` stay present in any `y` with `x ||| y = y`. -/
theorem bitIn_of_subset {x y d : ℕ} (hd : d ∈ dirs) (hxy : x ||| y = y)
    (hb : bitIn d x) : bitIn d y := by
  obtain ⟨k, rfl⟩ : ∃ k, d = 2 ^ k := by
    rcases mem_dirs.1 hd with rfl | rfl | rfl | rfl
    exacts [⟨0, rfl⟩, ⟨1, rfl⟩, ⟨2, rfl⟩, ⟨3, rfl⟩]
  unfold bitIn at hb ⊢
  rw [Nat.and_two_pow] at hb ⊢
  have hbx : x.testBit k = true := by
    by_contra hfalse
    rw [Bool.not_eq_true] at hfalse
    rw [hfalse] at hb
    simp at hb
  have hby : y.testBit k = true := by
    have hco := congrArg (fun z => z.testBit k) hxy
    simp only [Nat.testBit_or, hbx, Bool.true_or] at hco
    exact hco.symm
  rw [hby]
  show (1 : ℕ) * 2 ^ k ≠ 0
  rw [Nat.one_mul]
  exact (Nat.two_pow_pos k).ne'

/-- `execTiles` only adds bits, position by position. -/
theorem bitsSubset_execTiles (w h : ℕ) (T : List ℕ) (e : Xyd) :
    bitsSubset T (execTiles w h T e) :=
  bitsSubset_trans (bitsSubset_orAt _ _ _) (bitsSubset_orAt _ _ _)

theorem bitIn_cellAt_subset {w : ℕ} {T T' : List ℕ} (hsub : bitsSubset T T')
    {c : Cell} {d : ℕ} (hd : d ∈ dirs) (hb : bitIn d (cellAt w T c)) :
    bitIn d (cellAt w T' c) :=
  bitIn_of_subset hd (hsub (idx w c.1 c.2)) hb

theorem cellAt_ne_zero_subset {w : ℕ} {T T' : List ℕ} (hsub : bitsSubset T T')
    {c : Cell} (hne : cellAt w T c ≠ 0) : cellAt w T' c ≠ 0 := by
  intro h0
  have := hsub (idx w c.1 c.2)
  unfold cellAt at h0 hne
  rw [h0, Nat.or_zero] at this
  exact hne this

theorem connStep_mono {w h : ℕ} {T T' : List ℕ} (hsub : bitsSubset T T')
    {a b : Cell} (hs : connStep w h T a b) : connStep w h T' a b := by
  obtain ⟨d, hd, h1, h2, hb⟩ := hs
  exact ⟨d, hd, bitIn_cellAt_subset hsub hd h1,
    bitIn_cellAt_subset hsub (F_mem_dirs hd) h2, hb⟩

theorem reachConn_mono {w h : ℕ} {T T' : List ℕ} (hsub : bitsSubset T T')
    {a b : Cell} (hr : ReachConn w h T a b) : ReachConn w h T' a b :=
  Relation.ReflTransGen.mono (fun _ _ hs => connStep_mono hsub hs) hr

/-- The add-loop skip disjunction is exactly the negation of `legalDir`. -/
theorem skip_iff_not_legal {w h x2 y2 : ℕ} {d : ℕ} (hd : d ∈ dirs) :
    ((d = U ∧ y2 = 0) ∨ (d = D ∧ y2 = h - 1) ∨
      (d = L ∧ x2 = 0) ∨ (d = R ∧ x2 = w - 1)) ↔
      ¬ legalDir w h (x2, y2) d := by
  rcases mem_dirs.1 hd with rfl | rfl | rfl | rfl <;>
    simp [legalDir, U, D, L, R]

/-- Membership after the T-piece removal stage. -/
theorem mem_execP2_iff {w : ℕ} {t2 : List ℕ} {e : Xyd} {P1 : List Xyd}
    (hnd : P1.Nodup) {a : Xyd} :
    a ∈ execP2 w t2 e P1 ↔ a ∈ P1 ∧
      (COUNT (t2.getD (idx w e.x e.y) 0) = 3 →
        a ≠ ⟨e.x, e.y, 0x0F ^^^ t2.getD (idx w e.x e.y) 0⟩) := by
  unfold execP2
  split
  · next hcnt =>
      rw [mem_del234_iff hnd]
      constructor
      · rintro ⟨h1, h2⟩; exact ⟨h1, fun _ => h2⟩
      · rintro ⟨h1, h2⟩; exact ⟨h1, h2 hcnt⟩
  · next hcnt =>
      constructor
      · intro h1; exact ⟨h1, fun hc => absurd hc hcnt⟩
      · exact fun h1 => h1.1

theorem nodup_execP2 {w : ℕ} {t2 : List ℕ} {e : Xyd} {P1 : List Xyd}
    (hnd : P1.Nodup) : (execP2 w t2 e P1).Nodup := by
  unfold execP2
  split
  · exact nodup_del234 hnd
  · exact hnd

/-! ## The generation-loop invariant -/

/-- The inductive invariant of the spanning-tree construction loop over
the tile array `T` and the possibility list `P`. -/
structure GenInv (w h : ℕ) (wrap : Bool) (T : List ℕ) (P : List Xyd) : Prop where
  len : T.length = w * h
  range : ∀ t ∈ T, t < 16
  sym : ∀ c : Cell, validCell w h c → ∀ d ∈ dirs,
    (bitIn d (cellAt w T c) ↔ bitIn (F d) (cellAt w T (stepCell w h c d)))
  nodup : P.Nodup
  pvalid : ∀ e ∈ P, e.x < w ∧ e.y < h ∧ e.d ∈ dirs
  src : ∀ e ∈ P, usedP w h T (e.x, e.y)
  tgt : ∀ e ∈ P, ¬ usedP w h T (stepCell w h (e.x, e.y) e.d)
  low : ∀ e ∈ P, COUNT (cellAt w T (e.x, e.y)) ≤ 2
  cnt3 : ∀ c : Cell, validCell w h c → COUNT (cellAt w T c) ≤ 3
  ctrZero : cellAt w T (ctr w h) = 0 → ∀ e ∈ P, (e.x, e.y) = ctr w h
  leg : wrap = false → ∀ e ∈ P, legalDir w h (e.x, e.y) e.d
  offb : wrap = false → ∀ c : Cell, validCell w h c → ∀ d ∈ dirs,
    bitIn d (cellAt w T c) → legalDir w h c d
  fill : ∀ c : Cell, validCell w h c → ∀ d ∈ dirs, usedP w h T c →
    legalW w h wrap c d → ¬ usedP w h T (stepCell w h c d) →
    (⟨c.1, c.2, d⟩ : Xyd) ∈ P ∨
      (COUNT (cellAt w T c) = 3 ∧ ¬ bitIn d (cellAt w T c))
  conn : ∀ c : Cell, validCell w h c → usedP w h T c →
    ReachConn w h T (ctr w h) c
  cert : TreeCert w h T

theorem ctr_valid {w h : ℕ} (hw : 3 ≤ w) (hh : 3 ≤ h) :
    validCell w h (ctr w h) :=
  ⟨Nat.div_lt_self (by omega) (by decide), Nat.div_lt_self (by omega) (by decide)⟩

theorem ctr_legal {w h : ℕ} (hw : 3 ≤ w) (hh : 3 ≤ h) {d : ℕ}
    (hd : d ∈ dirs) : legalDir w h (ctr w h) d := by
  rcases mem_dirs.1 hd with rfl | rfl | rfl | rfl <;>
    refine ⟨?_, ?_, ?_, ?_⟩ <;> intro hdd <;> first
      | exact absurd hdd (by decide)
      | (simp only [ctr]; omega)

/-- The invariant holds at the start of the construction loop. -/
theorem genInv_init {w h : ℕ} (hw : 3 ≤ w) (hh : 3 ≤ h) (wrap : Bool)
    (seed : String) :
    GenInv w h wrap (initGen w h seed).tiles (initGen w h seed).poss := by
  show GenInv w h wrap (List.replicate (w * h) 0)
    [⟨w / 2, h / 2, 1⟩, ⟨w / 2, h / 2, 2⟩, ⟨w / 2, h / 2, 4⟩, ⟨w / 2, h / 2, 8⟩]
  have hctrv : validCell w h (ctr w h) := ctr_valid hw hh
  have hzero : ∀ c : Cell, cellAt w (List.replicate (w * h) 0) c = 0 :=
    fun c => cellAt_replicate w (w * h) c
  have husedP : ∀ c : Cell,
      usedP w h (List.replicate (w * h) 0) c ↔ c = ctr w h := by
    intro c
    unfold usedP
    rw [hzero]
    simp
  have hnotbit : ∀ (d : ℕ) (c : Cell),
      ¬ bitIn d (cellAt w (List.replicate (w * h) 0) c) := by
    intro d c
    rw [hzero]
    simp [bitIn]
  have hmemP : ∀ a : Xyd,
      a ∈ [(⟨w / 2, h / 2, 1⟩ : Xyd), ⟨w / 2, h / 2, 2⟩,
        ⟨w / 2, h / 2, 4⟩, ⟨w / 2, h / 2, 8⟩] ↔
      (a.x, a.y) = ctr w h ∧ a.d ∈ dirs := by
    intro a
    constructor
    · intro ha
      fin_cases ha <;> exact ⟨rfl, by simp [dirs]⟩
    · rintro ⟨hxy, hd⟩
      obtain ⟨ax, ay, ad⟩ := a
      have h1 : ax = w / 2 := congrArg Prod.fst hxy
      have h2 : ay = h / 2 := congrArg Prod.snd hxy
      subst h1; subst h2
      rcases mem_dirs.1 hd with rfl | rfl | rfl | rfl
      · exact List.mem_cons_self _ _
      · exact List.mem_cons_of_mem _ (List.mem_cons_self _ _)
      · exact List.mem_cons_of_mem _ (List.mem_cons_of_mem _ (List.mem_cons_self _ _))
      · exact List.mem_cons_of_mem _ (List.mem_cons_of_mem _
          (List.mem_cons_of_mem _ (List.mem_cons_self _ _)))
  refine
    { len := List.length_replicate _ _
      range := ?_
      sym := ?_
      nodup := ?_
      pvalid := ?_
      src := ?_
      tgt := ?_
      low := ?_
      cnt3 := ?_
      ctrZero := ?_
      leg := ?_
      offb := ?_
      fill := ?_
      conn := ?_
      cert := ?_ }
  · intro t ht
    rw [List.eq_of_mem_replicate ht]
    decide
  · intro c hc d hd
    constructor
    · intro hb; exact absurd hb (hnotbit d c)
    · intro hb; exact absurd hb (hnotbit (F d) _)
  · refine List.Nodup.cons ?_ (List.Nodup.cons ?_ (List.Nodup.cons ?_
      (List.nodup_singleton _))) <;> simp [Xyd.mk.injEq]
  · intro e he
    obtain ⟨hxy, hd⟩ := (hmemP e).1 he
    have h1 : e.x = w / 2 := congrArg Prod.fst hxy
    have h2 : e.y = h / 2 := congrArg Prod.snd hxy
    rw [h1, h2]
    exact ⟨hctrv.1, hctrv.2, hd⟩
  · intro e he
    rw [husedP]
    exact ((hmemP e).1 he).1
  · intro e he
    obtain ⟨hxy, hd⟩ := (hmemP e).1 he
    rw [husedP, hxy]
    exact stepCell_ne_self hw hh hctrv hd
  · intro e _
    rw [hzero]
    decide
  · intro c _
    rw [hzero]
    decide
  · intro _ e he
    exact ((hmemP e).1 he).1
  · intro _ e he
    obtain ⟨hxy, hd⟩ := (hmemP e).1 he
    rw [show ((e.x, e.y) : Cell) = ctr w h from hxy]
    exact ctr_legal hw hh hd
  · intro _ c hc d hd hb
    exact absurd hb (hnotbit d c)
  · intro c hc d hd hused hlegal hnotused
    left
    rw [hmemP]
    exact ⟨(husedP c).1 hused, hd⟩
  · intro c hc hused
    rw [(husedP c).1 hused]
    exact Relation.ReflTransGen.refl
  · refine ⟨fun _ => 0, 1, ?_, ?_, ?_⟩
    · intro c _ _
      exact Nat.zero_lt_one
    · intro a b _ _ ha hb _
      rw [(husedP a).1 ha, (husedP b).1 hb]
    · intro c _ d _ e _ hbd _ _ _
      exact absurd hbd (hnotbit d c)

/-- Legality is reversible: if `d` does not leave the board from `c`,
then `F d` does not leave the board from the `d`-neighbour of `c`. -/
theorem legalDir_rev {w h : ℕ} (hw : 3 ≤ w) (hh : 3 ≤ h) {c : Cell}
    (hc : validCell w h c) {d : ℕ} (hd : d ∈ dirs)
    (hl : legalDir w h c d) : legalDir w h (stepCell w h c d) (F d) := by
  obtain ⟨hx, hy⟩ := hc
  rcases mem_dirs.1 hd with rfl | rfl | rfl | rfl
  · have hb := hl.2.2.2 rfl
    rw [show F 1 = 4 by decide]
    refine ⟨fun hdd => absurd hdd (by decide), fun hdd => absurd hdd (by decide),
      fun _ => ?_, fun hdd => absurd hdd (by decide)⟩
    show offX w c.1 1 ≠ 0
    rw [offX_one_eq hx]
    split <;> omega
  · have hb := hl.1 rfl
    rw [show F 2 = 8 by decide]
    refine ⟨fun hdd => absurd hdd (by decide), fun _ => ?_,
      fun hdd => absurd hdd (by decide), fun hdd => absurd hdd (by decide)⟩
    show offY h c.2 2 ≠ h - 1
    rw [offY_two_eq hy]
    split <;> omega
  · have hb := hl.2.2.1 rfl
    rw [show F 4 = 1 by decide]
    refine ⟨fun hdd => absurd hdd (by decide), fun hdd => absurd hdd (by decide),
      fun hdd => absurd hdd (by decide), fun _ => ?_⟩
    show offX w c.1 4 ≠ w - 1
    rw [offX_four_eq hx]
    split <;> omega
  · have hb := hl.2.1 rfl
    rw [show F 8 = 2 by decide]
    refine ⟨fun _ => ?_, fun hdd => absurd hdd (by decide),
      fun hdd => absurd hdd (by decide), fun hdd => absurd hdd (by decide)⟩
    show offY h c.2 8 ≠ 0
    rw [offY_eight_eq hy]
    split <;> omega

theorem Xyd_ext {a b : Xyd} (hx : a.x = b.x) (hy : a.y = b.y)
    (hd : a.d = b.d) : a = b := by
  cases a
  cases b
  cases hx
  cases hy
  cases hd
  rfl

/-- One executing iteration of the construction loop (net.c lines
222-319) preserves the invariant: drawing entry `e` at position `i`,
writing the two half-connections, removing a completed T-piece and the
possibilities aimed at the newly reached cell, and adding the outgoing
possibilities of that cell. -/
theorem genInv_exec {w h : ℕ} (hw : 3 ≤ w) (hh : 3 ≤ h) {wrap : Bool}
    {T : List ℕ} {P : List Xyd} (hinv : GenInv w h wrap T P)
    {i : ℕ} {e : Xyd} (hie : P[i]? = some e) :
    GenInv w h wrap (execTiles w h T e)
      (execPoss w h wrap T (delpos P i) e) := by
  have heP : e ∈ P := mem_of_getElem_opt hie
  obtain ⟨hex, hey, hed⟩ := hinv.pvalid e heP
  have hc1v : validCell w h (e.x, e.y) := ⟨hex, hey⟩
  have hc2v : validCell w h (stepCell w h (e.x, e.y) e.d) :=
    stepCell_valid (by omega) (by omega) _ _
  have htgt2 : ¬ usedP w h T (stepCell w h (e.x, e.y) e.d) := hinv.tgt e heP
  have hT2zero : cellAt w T (stepCell w h (e.x, e.y) e.d) = 0 := by
    by_contra hne
    exact htgt2 (Or.inl hne)
  have hsrc1 : usedP w h T (e.x, e.y) := hinv.src e heP
  have hlow1 : COUNT (cellAt w T (e.x, e.y)) ≤ 2 := hinv.low e heP
  have hT1lt : cellAt w T (e.x, e.y) < 16 := cellAt_lt16 hinv.range _
  have hc2c1 : stepCell w h (e.x, e.y) e.d ≠ (e.x, e.y) :=
    stepCell_ne_self hw hh hc1v hed
  have hTA : ∀ c : Cell, validCell w h c →
      cellAt w (execTiles w h T e) c =
        if c = (e.x, e.y) then cellAt w T c ||| e.d
        else if c = stepCell w h (e.x, e.y) e.d then cellAt w T c ||| F e.d
        else cellAt w T c :=
    fun c hc => cellAt_execTiles hw hh hinv.len hex hey hed hc
  have hT'c1 : cellAt w (execTiles w h T e) (e.x, e.y) =
      cellAt w T (e.x, e.y) ||| e.d := by
    rw [hTA _ hc1v, if_pos rfl]
  have hT'c2 : cellAt w (execTiles w h T e)
      (stepCell w h (e.x, e.y) e.d) = F e.d := by
    rw [hTA _ hc2v, if_neg hc2c1, if_pos rfl, hT2zero, Nat.zero_or]
  have hT'other : ∀ c : Cell, validCell w h c → c ≠ (e.x, e.y) →
      c ≠ stepCell w h (e.x, e.y) e.d →
      cellAt w (execTiles w h T e) c = cellAt w T c := by
    intro c hc h1 h2
    rw [hTA c hc, if_neg h1, if_neg h2]
  have hbit1 : bitIn e.d (cellAt w (execTiles w h T e) (e.x, e.y)) := by
    rw [hT'c1]
    exact (bitIn_or_dirs _ hT1lt _ hed _ hed).2 (Or.inr rfl)
  have hT'c1ne : cellAt w (execTiles w h T e) (e.x, e.y) ≠ 0 :=
    ne_zero_of_bitIn hbit1
  have hbit2 : bitIn (F e.d) (cellAt w (execTiles w h T e)
      (stepCell w h (e.x, e.y) e.d)) := by
    rw [hT'c2]
    exact (bitIn_single_dir _ (F_mem_dirs hed) _ (F_mem_dirs hed)).2 rfl
  have hT'c2ne : cellAt w (execTiles w h T e)
      (stepCell w h (e.x, e.y) e.d) ≠ 0 := ne_zero_of_bitIn hbit2
  have hT'c1lt : cellAt w (execTiles w h T e) (e.x, e.y) < 16 := by
    rw [hT'c1]
    exact or_dir_lt16 _ hT1lt _ hed
  have hsub : bitsSubset T (execTiles w h T e) := bitsSubset_execTiles w h T e
  have husedmono : ∀ c : Cell, usedP w h T c →
      usedP w h (execTiles w h T e) c := by
    intro c hc
    rcases hc with hne | hctr
    · exact Or.inl (cellAt_ne_zero_subset hsub hne)
    · exact Or.inr hctr
  have hctr' : cellAt w (execTiles w h T e) (ctr w h) ≠ 0 := by
    intro h0
    have hctr0 : cellAt w T (ctr w h) = 0 := by
      by_contra hne
      exact cellAt_ne_zero_subset hsub hne h0
    have hceq := hinv.ctrZero hctr0 e heP
    rw [← hceq] at h0
    exact hT'c1ne h0
  have husedP_of : ∀ c : Cell, validCell w h c →
      usedP w h (execTiles w h T e) c →
      c ≠ stepCell w h (e.x, e.y) e.d → usedP w h T c := by
    intro c hc hu hne
    rcases hu with hcell | hctr
    · by_cases hcc1 : c = (e.x, e.y)
      · rw [hcc1]
        exact hsrc1
      · rw [hT'other c hc hcc1 hne] at hcell
        exact Or.inl hcell
    · exact Or.inr hctr
  have hnd1 : (delpos P i).Nodup := nodup_delpos hinv.nodup i
  have hnd2 : (execP2 w (execTiles w h T e) e (delpos P i)).Nodup :=
    nodup_execP2 hnd1
  have hmemP' : ∀ a : Xyd, a ∈ execPoss w h wrap T (delpos P i) e ↔
      ((((a ∈ P ∧ a ≠ e) ∧
        (COUNT ((execTiles w h T e).getD (idx w e.x e.y) 0) = 3 →
          a ≠ ⟨e.x, e.y, 0x0F ^^^ (execTiles w h T e).getD (idx w e.x e.y) 0⟩)) ∧
        ∀ d ∈ dirs,
          a ≠ ⟨offX w (offX w e.x e.d) d, offY h (offY h e.y e.d) d, F d⟩) ∨
       ∃ d ∈ dirs, addCond w h wrap (execTiles w h T e) (offX w e.x e.d)
          (offY h e.y e.d) (F e.d) d ∧
          a = ⟨offX w e.x e.d, offY h e.y e.d, d⟩) := by
    intro a
    unfold execPoss
    rw [mem_addOut, mem_possTargetsRemove hnd2, mem_execP2_iff hnd1,
      mem_delpos_iff hinv.nodup hie]
  have htargets : ∀ a : Xyd, a.x < w → a.y < h → a.d ∈ dirs →
      stepCell w h (a.x, a.y) a.d = stepCell w h (e.x, e.y) e.d →
      (∀ d ∈ dirs,
        a ≠ ⟨offX w (offX w e.x e.d) d, offY h (offY h e.y e.d) d, F d⟩) →
      False := by
    intro a hax hay had hstep hall
    apply hall (F a.d) (F_mem_dirs had)
    have h1 : ((a.x, a.y) : Cell) =
        stepCell w h (stepCell w h (e.x, e.y) e.d) (F a.d) := by
      rw [← hstep]
      exact stepCell_eq_comm ⟨hax, hay⟩ had rfl
    refine Xyd_ext ?_ ?_ ?_
    · exact congrArg Prod.fst h1
    · exact congrArg Prod.snd h1
    · exact (F_F had).symm
  refine ⟨?_, ?_, ?_, ?_, ?_, ?_, ?_, ?_, ?_, ?_, ?_, ?_, ?_, ?_, ?_⟩
  -- len
  · rw [length_execTiles]
    exact hinv.len
  -- range
  · exact range_orAt (range_orAt hinv.range hed) (F_mem_dirs hed)
  -- sym
  · intro c hc d hd
    have hstepv : validCell w h (stepCell w h c d) :=
      stepCell_valid (by omega) (by omega) _ _
    by_cases hcc1 : c = (e.x, e.y)
    · subst hcc1
      by_cases hdd : d = e.d
      · subst hdd
        exact iff_of_true hbit1 hbit2
      · rw [hT'c1, hT'other _ hstepv (stepCell_ne_self hw hh hc1v hd)
            (stepCell_inj_dir hw hh hc1v hd hed hdd),
          bitIn_or_dirs _ hT1lt _ hd _ hed]
        constructor
        · rintro (hb | rfl)
          · exact (hinv.sym _ hc1v d hd).1 hb
          · exact absurd rfl hdd
        · intro hb
          exact Or.inl ((hinv.sym _ hc1v d hd).2 hb)
    · by_cases hcc2 : c = stepCell w h (e.x, e.y) e.d
      · subst hcc2
        by_cases hdd : d = F e.d
        · subst hdd
          refine iff_of_true ?_ ?_
          · rw [hT'c2]
            exact (bitIn_single_dir _ (F_mem_dirs hed) _ (F_mem_dirs hed)).2 rfl
          · rw [stepCell_invol hc1v hed, F_F hed]
            exact hbit1
        · have hne2' : stepCell w h (stepCell w h (e.x, e.y) e.d) d ≠
              stepCell w h (e.x, e.y) e.d := stepCell_ne_self hw hh hc2v hd
          have hne1' : stepCell w h (stepCell w h (e.x, e.y) e.d) d ≠
              (e.x, e.y) := by
            intro hcon
            have h2 : stepCell w h (stepCell w h (e.x, e.y) e.d) d =
                stepCell w h (stepCell w h (e.x, e.y) e.d) (F e.d) := by
              rw [stepCell_invol hc1v hed]
              exact hcon
            exact stepCell_inj_dir hw hh hc2v hd (F_mem_dirs hed) hdd h2
          refine iff_of_false ?_ ?_
          · rw [hT'c2]
            intro hb
            exact hdd ((bitIn_single_dir _ hd _ (F_mem_dirs hed)).1 hb)
          · rw [hT'other _ hstepv hne1' hne2']
            intro hb
            have hb2 := (hinv.sym _ hc2v d hd).2 hb
            rw [hT2zero] at hb2
            exact hb2 (Nat.zero_and _)
      · rw [hT'other c hc hcc1 hcc2]
        by_cases hs1 : stepCell w h c d = (e.x, e.y)
        · rw [hs1, hT'c1, bitIn_or_dirs _ hT1lt _ (F_mem_dirs hd) _ hed]
          have hFdne : F d ≠ e.d := by
            intro hcon
            apply hcc2
            have hc' : c = stepCell w h (e.x, e.y) (F d) :=
              stepCell_eq_comm hc hd hs1.symm
            rw [hc', hcon]
          constructor
          · intro hb
            have hb' := (hinv.sym c hc d hd).1 hb
            rw [hs1] at hb'
            exact Or.inl hb'
          · rintro (hb | hcon)
            · refine (hinv.sym c hc d hd).2 ?_
              rw [hs1]
              exact hb
            · exact absurd hcon hFdne
        · by_cases hs2 : stepCell w h c d = stepCell w h (e.x, e.y) e.d
          · refine iff_of_false ?_ ?_
            · intro hb
              have hb2 := (hinv.sym c hc d hd).1 hb
              rw [hs2, hT2zero] at hb2
              exact hb2 (Nat.zero_and _)
            · rw [hs2, hT'c2]
              intro hb
              have hdeq : F d = F e.d :=
                (bitIn_single_dir _ (F_mem_dirs hd) _ (F_mem_dirs hed)).1 hb
              have hde : d = e.d := F_inj_dirs hd hed hdeq
              apply hcc1
              have hc' : c = stepCell w h (stepCell w h (e.x, e.y) e.d) (F d) :=
                stepCell_eq_comm hc hd hs2.symm
              rw [hc', hde, stepCell_invol hc1v hed]
          · rw [hT'other _ hstepv hs1 hs2]
            exact hinv.sym c hc d hd
  -- nodup
  · show (addOut w h wrap (execTiles w h T e) (offX w e.x e.d)
      (offY h e.y e.d) (F e.d) (possTargetsRemove w h (offX w e.x e.d)
        (offY h e.y e.d) (execP2 w (execTiles w h T e) e (delpos P i)))).Nodup
    refine nodup_addOut (nodup_possTargetsRemove hnd2) ?_
    intro d' hd' hmem
    have h1 := ((mem_possTargetsRemove hnd2).1 hmem).1
    have h2 := ((mem_execP2_iff hnd1).1 h1).1
    have h3 := ((mem_delpos_iff hinv.nodup hie).1 h2).1
    exact htgt2 (hinv.src _ h3)
  -- pvalid
  · intro a hmem
    rcases (hmemP' a).1 hmem with ⟨⟨⟨haP, _⟩, _⟩, _⟩ | ⟨d', hd', _, rfl⟩
    · exact hinv.pvalid a haP
    · exact ⟨offX_lt (by omega), offY_lt (by omega), hd'⟩
  -- src
  · intro a hmem
    rcases (hmemP' a).1 hmem with ⟨⟨⟨haP, _⟩, _⟩, _⟩ | ⟨d', _, _, rfl⟩
    · exact husedmono _ (hinv.src a haP)
    · exact Or.inl hT'c2ne
  -- tgt
  · intro a hmem
    rcases (hmemP' a).1 hmem with ⟨⟨⟨haP, hane⟩, htpass⟩, hnokeys⟩ |
      ⟨d', hd', hcond, rfl⟩
    · obtain ⟨hax, hay, had⟩ := hinv.pvalid a haP
      have htold := hinv.tgt a haP
      have hstv : validCell w h (stepCell w h (a.x, a.y) a.d) :=
        stepCell_valid (by omega) (by omega) _ _
      have htzero : cellAt w T (stepCell w h (a.x, a.y) a.d) = 0 ∧
          stepCell w h (a.x, a.y) a.d ≠ ctr w h := by
        constructor
        · by_contra hne
          exact htold (Or.inl hne)
        · intro hcon
          exact htold (Or.inr hcon)
      have htne2 : stepCell w h (a.x, a.y) a.d ≠
          stepCell w h (e.x, e.y) e.d := by
        intro hcon
        exact htargets a hax hay had hcon hnokeys
      have htne1 : stepCell w h (a.x, a.y) a.d ≠ (e.x, e.y) := by
        intro hcon
        rcases hsrc1 with hne | hctr1
        · rw [hcon] at htzero
          exact hne htzero.1
        · exact htzero.2 (hcon.trans hctr1)
      rintro (hne | hctr)
      · rw [hT'other _ hstv htne1 htne2] at hne
        exact hne htzero.1
      · exact htzero.2 hctr
    · have ht0 : cellAt w (execTiles w h T e)
          (stepCell w h (stepCell w h (e.x, e.y) e.d) d') = 0 := by
        by_contra hne
        exact hcond.2.2 hne
      show ¬ usedP w h (execTiles w h T e)
        (stepCell w h (stepCell w h (e.x, e.y) e.d) d')
      rintro (hne | hctr)
      · exact hne ht0
      · rw [hctr] at ht0
        exact hctr' ht0
  -- low
  · intro a hmem
    rcases (hmemP' a).1 hmem with ⟨⟨⟨haP, hane⟩, htpass⟩, hnokeys⟩ |
      ⟨d', hd', _, rfl⟩
    · obtain ⟨hax, hay, had⟩ := hinv.pvalid a haP
      by_cases hsa1 : ((a.x, a.y) : Cell) = (e.x, e.y)
      · rw [hsa1]
        by_contra hgt
        have hle3 : COUNT (cellAt w (execTiles w h T e) (e.x, e.y)) ≤ 3 := by
          rw [hT'c1]
          exact COUNT_le3_or _ hT1lt _ hed hlow1
        have hc3 : COUNT (cellAt w (execTiles w h T e) (e.x, e.y)) = 3 := by
          omega
        have hax' : a.x = e.x := congrArg Prod.fst hsa1
        have hay' : a.y = e.y := congrArg Prod.snd hsa1
        have hadne : a.d ≠ e.d := by
          intro hcon
          exact hane (Xyd_ext hax' hay' hcon)
        have hnotbit_old : ¬ bitIn a.d (cellAt w T (e.x, e.y)) := by
          intro hb
          have hb2 := (hinv.sym _ hc1v a.d had).1 hb
          apply hinv.tgt a haP
          rw [hsa1]
          exact Or.inl (ne_zero_of_bitIn hb2)
        have hnotbit_new :
            ¬ bitIn a.d (cellAt w (execTiles w h T e) (e.x, e.y)) := by
          rw [hT'c1]
          intro hb
          rcases (bitIn_or_dirs _ hT1lt _ had _ hed).1 hb with hb' | hb''
          · exact hnotbit_old hb'
          · exact hadne hb''
        have hmiss : a.d = 15 ^^^ cellAt w (execTiles w h T e) (e.x, e.y) :=
          (count3_char _ hT'c1lt hc3 _ had).1 hnotbit_new
        exact htpass hc3 (Xyd_ext hax' hay' hmiss)
      · by_cases hsa2 : ((a.x, a.y) : Cell) = stepCell w h (e.x, e.y) e.d
        · exfalso
          apply htgt2
          rw [← hsa2]
          exact hinv.src a haP
        · rw [hT'other _ ⟨hax, hay⟩ hsa1 hsa2]
          exact hinv.low a haP
    · show COUNT (cellAt w (execTiles w h T e)
        (stepCell w h (e.x, e.y) e.d)) ≤ 2
      rw [hT'c2]
      have hcd := COUNT_dir _ (F_mem_dirs hed)
      omega
  -- cnt3
  · intro c hc
    by_cases hcc1 : c = (e.x, e.y)
    · subst hcc1
      rw [hT'c1]
      exact COUNT_le3_or _ hT1lt _ hed hlow1
    · by_cases hcc2 : c = stepCell w h (e.x, e.y) e.d
      · subst hcc2
        rw [hT'c2]
        have hcd := COUNT_dir _ (F_mem_dirs hed)
        omega
      · rw [hT'other c hc hcc1 hcc2]
        exact hinv.cnt3 c hc
  -- ctrZero
  · intro h0
    exact absurd h0 hctr'
  -- leg
  · intro hwf a hmem
    rcases (hmemP' a).1 hmem with ⟨⟨⟨haP, _⟩, _⟩, _⟩ | ⟨d', hd', hcond, rfl⟩
    · exact hinv.leg hwf a haP
    · show legalDir w h (offX w e.x e.d, offY h e.y e.d) d'
      by_contra hnl
      apply hcond.2.1
      exact ⟨hwf, (skip_iff_not_legal hd').2 hnl⟩
  -- offb
  · intro hwf c hc d hd hb
    by_cases hcc1 : c = (e.x, e.y)
    · subst hcc1
      rw [hT'c1] at hb
      rcases (bitIn_or_dirs _ hT1lt _ hd _ hed).1 hb with hb' | rfl
      · exact hinv.offb hwf _ hc1v d hd hb'
      · exact hinv.leg hwf e heP
    · by_cases hcc2 : c = stepCell w h (e.x, e.y) e.d
      · subst hcc2
        rw [hT'c2] at hb
        have hdeq : d = F e.d := (bitIn_single_dir _ hd _ (F_mem_dirs hed)).1 hb
        subst hdeq
        exact legalDir_rev hw hh hc1v hed (hinv.leg hwf e heP)
      · rw [hT'other c hc hcc1 hcc2] at hb
        exact hinv.offb hwf c hc d hd hb
  -- fill
  · intro c hc d hd hu' hl hnu'
    have hnu_old : ¬ usedP w h T (stepCell w h c d) :=
      fun hcon => hnu' (husedmono _ hcon)
    have hne_u_c2 : stepCell w h c d ≠ stepCell w h (e.x, e.y) e.d := by
      intro hcon
      apply hnu'
      rw [hcon]
      exact Or.inl hT'c2ne
    by_cases hcc2 : c = stepCell w h (e.x, e.y) e.d
    · subst hcc2
      left
      rw [hmemP' _]
      right
      refine ⟨d, hd, ⟨?_, ?_, ?_⟩, ?_⟩
      · intro hcon
        subst hcon
        apply hnu'
        rw [stepCell_invol hc1v hed]
        exact Or.inl hT'c1ne
      · rintro ⟨hwf, hskip⟩
        rcases hl with htr | hld
        · rw [hwf] at htr
          exact Bool.noConfusion htr
        · exact (skip_iff_not_legal hd).1 hskip hld
      · intro hcon
        apply hcon
        show cellAt w (execTiles w h T e)
          (stepCell w h (stepCell w h (e.x, e.y) e.d) d) = 0
        by_contra hne
        exact hnu' (Or.inl hne)
      · rfl
    · have hused_old : usedP w h T c := husedP_of c hc hu' hcc2
      rcases hinv.fill c hc d hd hused_old hl hnu_old with hkey | ⟨hcnt, hnb⟩
      · by_cases htk : COUNT (cellAt w (execTiles w h T e) (e.x, e.y)) = 3 ∧
            (⟨c.1, c.2, d⟩ : Xyd) =
              ⟨e.x, e.y, 0x0F ^^^ cellAt w (execTiles w h T e) (e.x, e.y)⟩
        · right
          obtain ⟨hcnt3, hkeq⟩ := htk
          have h1 : c.1 = e.x := congrArg Xyd.x hkeq
          have h2 : c.2 = e.y := congrArg Xyd.y hkeq
          have h3 : d = 0x0F ^^^ cellAt w (execTiles w h T e) (e.x, e.y) :=
            congrArg Xyd.d hkeq
          have hceq : c = (e.x, e.y) := Prod.ext h1 h2
          rw [hceq]
          exact ⟨hcnt3, (count3_char _ hT'c1lt hcnt3 _ hd).2 h3⟩
        · left
          rw [hmemP' _]
          left
          refine ⟨⟨⟨hkey, ?_⟩, ?_⟩, ?_⟩
          · intro hcon
            have h1 : c.1 = e.x := congrArg Xyd.x hcon
            have h2 : c.2 = e.y := congrArg Xyd.y hcon
            have h3 : d = e.d := congrArg Xyd.d hcon
            apply hne_u_c2
            rw [show c = (e.x, e.y) from Prod.ext h1 h2, h3]
          · intro hcnt3 hkeq
            exact htk ⟨hcnt3, hkeq⟩
          · intro d' hd' hcon
            have h1 : c.1 = offX w (offX w e.x e.d) d' := congrArg Xyd.x hcon
            have h2 : c.2 = offY h (offY h e.y e.d) d' := congrArg Xyd.y hcon
            have h3 : d = F d' := congrArg Xyd.d hcon
            have hceq : c = stepCell w h (stepCell w h (e.x, e.y) e.d) d' :=
              Prod.ext h1 h2
            apply hne_u_c2
            rw [hceq, h3]
            exact stepCell_invol hc2v hd'
      · right
        have hcc1 : c ≠ (e.x, e.y) := by
          intro hcon
          rw [hcon] at hcnt
          omega
        rw [hT'other c hc hcc1 hcc2]
        exact ⟨hcnt, hnb⟩
  -- conn
  · intro c hc hu'
    by_cases hcc2 : c = stepCell w h (e.x, e.y) e.d
    · subst hcc2
      refine Relation.ReflTransGen.tail
        (reachConn_mono hsub (hinv.conn _ hc1v hsrc1)) ?_
      exact ⟨e.d, hed, hbit1, hbit2, rfl⟩
    · exact reachConn_mono hsub (hinv.conn c hc (husedP_of c hc hu' hcc2))
  -- cert
  · obtain ⟨tm, k, hbound, hinj, hparent⟩ := hinv.cert
    refine ⟨Function.update tm (stepCell w h (e.x, e.y) e.d) k, k + 1,
      ?_, ?_, ?_⟩
    · intro c hc hu'
      by_cases hcc2 : c = stepCell w h (e.x, e.y) e.d
      · rw [hcc2, Function.update_same]
        omega
      · rw [Function.update_noteq hcc2]
        have := hbound c hc (husedP_of c hc hu' hcc2)
        omega
    · intro a b hva hvb hua hub heq
      by_cases ha2 : a = stepCell w h (e.x, e.y) e.d <;>
        by_cases hb2 : b = stepCell w h (e.x, e.y) e.d
      · rw [ha2, hb2]
      · exfalso
        rw [ha2, Function.update_same, Function.update_noteq hb2] at heq
        have := hbound b hvb (husedP_of b hvb hub hb2)
        omega
      · exfalso
        rw [hb2, Function.update_same, Function.update_noteq ha2] at heq
        have := hbound a hva (husedP_of a hva hua ha2)
        omega
      · rw [Function.update_noteq ha2, Function.update_noteq hb2] at heq
        exact hinj a b hva hvb (husedP_of a hva hua ha2)
          (husedP_of b hvb hub hb2) heq
    · intro c hvc d1 hd1 d2 hd2 hb1 hb2p ht1 ht2
      by_cases hcc2 : c = stepCell w h (e.x, e.y) e.d
      · subst hcc2
        rw [hT'c2] at hb1 hb2p
        have e1 : d1 = F e.d := (bitIn_single_dir _ hd1 _ (F_mem_dirs hed)).1 hb1
        have e2 : d2 = F e.d := (bitIn_single_dir _ hd2 _ (F_mem_dirs hed)).1 hb2p
        rw [e1, e2]
      · by_cases hcc1 : c = (e.x, e.y)
        · subst hcc1
          have hc1ne2 : ((e.x, e.y) : Cell) ≠ stepCell w h (e.x, e.y) e.d :=
            fun hcon => hc2c1 hcon.symm
          rw [Function.update_noteq hc1ne2] at ht1 ht2
          have key : ∀ d', d' ∈ dirs →
              bitIn d' (cellAt w (execTiles w h T e) (e.x, e.y)) →
              Function.update tm (stepCell w h (e.x, e.y) e.d) k
                (stepCell w h (e.x, e.y) d') < tm (e.x, e.y) →
              bitIn d' (cellAt w T (e.x, e.y)) ∧ d' ≠ e.d := by
            intro d' hd' hb' htm'
            have hdne : d' ≠ e.d := by
              intro hcon
              subst hcon
              rw [Function.update_same] at htm'
              have := hbound (e.x, e.y) hc1v hsrc1
              omega
            refine ⟨?_, hdne⟩
            rw [hT'c1] at hb'
            rcases (bitIn_or_dirs _ hT1lt _ hd' _ hed).1 hb' with hb'' | hb''
            · exact hb''
            · exact absurd hb'' hdne
          have k1 := key d1 hd1 hb1 ht1
          have k2 := key d2 hd2 hb2p ht2
          have hs1ne : stepCell w h (e.x, e.y) d1 ≠
              stepCell w h (e.x, e.y) e.d :=
            stepCell_inj_dir hw hh hc1v hd1 hed k1.2
          have hs2ne : stepCell w h (e.x, e.y) d2 ≠
              stepCell w h (e.x, e.y) e.d :=
            stepCell_inj_dir hw hh hc1v hd2 hed k2.2
          rw [Function.update_noteq hs1ne] at ht1
          rw [Function.update_noteq hs2ne] at ht2
          exact hparent (e.x, e.y) hc1v d1 hd1 d2 hd2 k1.1 k2.1 ht1 ht2
        · have hbits : cellAt w (execTiles w h T e) c = cellAt w T c :=
            hT'other c hvc hcc1 hcc2
          rw [hbits] at hb1 hb2p
          have hstepne : ∀ d', d' ∈ dirs → bitIn d' (cellAt w T c) →
              stepCell w h c d' ≠ stepCell w h (e.x, e.y) e.d := by
            intro d' hd' hb' hcon
            have hbr := (hinv.sym c hvc d' hd').1 hb'
            rw [hcon, hT2zero] at hbr
            exact hbr (Nat.zero_and _)
          rw [Function.update_noteq (hstepne d1 hd1 hb1),
            Function.update_noteq hcc2] at ht1
          rw [Function.update_noteq (hstepne d2 hd2 hb2p),
            Function.update_noteq hcc2] at ht2
          exact hparent c hvc d1 hd1 d2 hd2 hb1 hb2p ht1 ht2

/-- The invariant is preserved by `genStep`, whether or not the random
draw finds an entry. -/
theorem genInv_step {w h : ℕ} (hw : 3 ≤ w) (hh : 3 ≤ h) {wrap : Bool}
    {s : GenSt} (hinv : GenInv w h wrap s.tiles s.poss) :
    GenInv w h wrap (genStep w h wrap s).tiles (genStep w h wrap s).poss := by
  rw [genStep_eq]
  cases ho : s.poss[(random_upto s.rng s.poss.length).1]? with
  | none =>
    rw [genStepGo_none]
    exact hinv
  | some e =>
    rw [genStepGo_some, genExec_tiles, genExec_poss]
    exact genInv_exec hw hh hinv ho

/-- The invariant is preserved by any number of loop iterations. -/
theorem genInv_loop {w h : ℕ} (hw : 3 ≤ w) (hh : 3 ≤ h) {wrap : Bool} :
    ∀ (f : ℕ) (s : GenSt), GenInv w h wrap s.tiles s.poss →
      GenInv w h wrap (genLoop w h wrap f s).tiles
        (genLoop w h wrap f s).poss := by
  intro f
  induction f with
  | zero =>
    intro s hinv
    rw [genLoop_zero]
    exact hinv
  | succ n ih =>
    intro s hinv
    rw [genLoop_succ]
    by_cases hemp : s.poss.isEmpty = true
    · rw [if_pos hemp]
      exact hinv
    · rw [if_neg hemp]
      exact ih _ (genInv_step hw hh hinv)

/-- The invariant holds of the state the construction phase returns. -/
theorem genInv_phase {w h : ℕ} (hw : 3 ≤ w) (hh : 3 ≤ h) (wrap : Bool)
    (seed : String) :
    GenInv w h wrap (genPhase w h wrap seed).tiles
      (genPhase w h wrap seed).poss := by
  show GenInv w h wrap (genLoop w h wrap (w * h + 1) (initGen w h seed)).tiles
    (genLoop w h wrap (w * h + 1) (initGen w h seed)).poss
  exact genInv_loop hw hh (w * h + 1) _ (genInv_init hw hh wrap seed)

/-- C2, amended: the symmetry invariant — a cell's mask contains `d` iff
its `d`-neighbour's mask contains the 180-degree-reflected direction —
holds of the grid the spanning-tree construction produces *before* the
final per-tile shuffle (`preShuffleTiles`), for every board at least 3
wide and 3 tall, wrapping or not.  (On the shuffled grid `new_game`
returns it fails; see the counterexample.) -/
theorem preshuffle_symmetric_c2 {w h : ℕ} (hw : 2 < w) (hh : 2 < h)
    (wrap : Bool) (seed : String) (c : Cell) (hc : validCell w h c)
    (d : ℕ) (hd : d ∈ dirs) :
    (bitIn d (cellAt w (preShuffleTiles w h wrap seed) c) ↔
      bitIn (F d) (cellAt w (preShuffleTiles w h wrap seed)
        (stepCell w h c d))) :=
  (genInv_phase (by omega) (by omega) wrap seed).sym c hc d hd

/-- Witness for `preshuffle_symmetric_c2`: the 3x3 seed-"123" board,
cell (1,1), direction R. -/
theorem preshuffle_symmetric_c2_witness :
    2 < 3 ∧ validCell 3 3 ((1, 1) : Cell) ∧ 1 ∈ dirs ∧
      (bitIn 1 (cellAt 3 (preShuffleTiles 3 3 false "123") (1, 1)) ↔
        bitIn (F 1) (cellAt 3 (preShuffleTiles 3 3 false "123")
          (stepCell 3 3 (1, 1) 1))) :=
  ⟨by decide, by decide, by decide,
    preshuffle_symmetric_c2 (by decide) (by decide) false "123" (1, 1)
      (by decide) 1 (by decide)⟩

/-! ## The shuffle preserves "no 4-cross" -/

/-- `ROT` always lands on one of the four rotations, whatever `n` is. -/
theorem ROT_cases (x n : ℕ) :
    ROT x n = x ∨ ROT x n = A x ∨ ROT x n = F x ∨ ROT x n = C x := by
  unfold ROT
  split
  · exact Or.inl rfl
  · split
    · exact Or.inr (Or.inl rfl)
    · split
      · exact Or.inr (Or.inr (Or.inl rfl))
      · exact Or.inr (Or.inr (Or.inr rfl))

theorem AFC_preserve : ∀ t < 16, COUNT t ≤ 3 →
    (A t < 16 ∧ COUNT (A t) ≤ 3) ∧ (F t < 16 ∧ COUNT (F t) ≤ 3) ∧
      (C t < 16 ∧ COUNT (C t) ≤ 3) := by decide

/-- Rotating a tile keeps it in range and keeps its connection count. -/
theorem ROT_preserve {t : ℕ} (ht : t < 16) (hc : COUNT t ≤ 3) (n : ℕ) :
    ROT t n < 16 ∧ COUNT (ROT t n) ≤ 3 := by
  rcases ROT_cases t n with he | he | he | he <;> rw [he]
  · exact ⟨ht, hc⟩
  · exact (AFC_preserve t ht hc).1
  · exact (AFC_preserve t ht hc).2.1
  · exact (AFC_preserve t ht hc).2.2

theorem foldl_preserve {α β : Type} (Q : β → Prop) (f : β → α → β)
    (hstep : ∀ b a, Q b → Q (f b a)) :
    ∀ (l : List α) (b : β), Q b → Q (List.foldl f b l) := by
  intro l
  induction l with
  | nil =>
    intro b hb
    exact hb
  | cons a tl ih =>
    intro b hb
    exact ih _ (hstep b a hb)

/-- One shuffle write preserves range and connection count everywhere. -/
theorem setROT_good {l : List ℕ}
    (hg : ∀ i, l.getD i 0 < 16 ∧ COUNT (l.getD i 0) ≤ 3) (j n : ℕ) :
    ∀ i, (setAt l j (ROT (l.getD j 0) n)).getD i 0 < 16 ∧
      COUNT ((setAt l j (ROT (l.getD j 0) n)).getD i 0) ≤ 3 := by
  intro i
  show (l.set j (ROT (l.getD j 0) n)).getD i 0 < 16 ∧
    COUNT ((l.set j (ROT (l.getD j 0) n)).getD i 0) ≤ 3
  rw [getD_set]
  by_cases hcnd : j = i ∧ i < l.length
  · rw [if_pos hcnd]
    exact ROT_preserve (hg j).1 (hg j).2 n
  · rw [if_neg hcnd]
    exact hg i

/-- The whole shuffle phase preserves range and connection count. -/
theorem shuffle_good (w h : ℕ) (wrap : Bool) (t : List ℕ) (r : Rng)
    (hg : ∀ i, t.getD i 0 < 16 ∧ COUNT (t.getD i 0) ≤ 3) :
    ∀ i, (shufflePhase w h wrap t r).1.getD i 0 < 16 ∧
      COUNT ((shufflePhase w h wrap t r).1.getD i 0) ≤ 3 := by
  unfold shufflePhase
  refine foldl_preserve (fun acc : List ℕ × Rng => ∀ i,
      acc.1.getD i 0 < 16 ∧ COUNT (acc.1.getD i 0) ≤ 3) _ ?_ _ (t, r) hg
  intro b y hb
  refine foldl_preserve (fun acc : List ℕ × Rng => ∀ i,
      acc.1.getD i 0 < 16 ∧ COUNT (acc.1.getD i 0) ≤ 3) _ ?_ _ b hb
  intro b2 x hb2
  exact setROT_good hb2 (idx w x y) (random_upto b2.2 4).1

/-- The pre-shuffle grid is in range with every count at most 3, at
every flat index. -/
theorem preShuffle_good {w h : ℕ} (hw : 2 < w) (hh : 2 < h) (wrap : Bool)
    (seed : String) :
    ∀ i, (preShuffleTiles w h wrap seed).getD i 0 < 16 ∧
      COUNT ((preShuffleTiles w h wrap seed).getD i 0) ≤ 3 := by
  intro i
  have hinv : GenInv w h wrap (genPhase w h wrap seed).tiles
      (genPhase w h wrap seed).poss :=
    genInv_phase (by omega) (by omega) wrap seed
  by_cases hi : i < w * h
  · have hvc : validCell w h (i % w, i / w) := by
      constructor
      · show i % w < w
        exact Nat.mod_lt i (by omega)
      · show i / w < h
        rw [Nat.div_lt_iff_lt_mul (by omega), Nat.mul_comm]
        omega
    have hidx : idx w (i % w) (i / w) = i := by
      show i / w * w + i % w = i
      rw [Nat.mul_comm]
      exact Nat.div_add_mod i w
    constructor
    · exact getD_lt16 hinv.range i
    · have h2 := hinv.cnt3 (i % w, i / w) hvc
      have h2' : COUNT ((genPhase w h wrap seed).tiles.getD
          (idx w (i % w) (i / w)) 0) ≤ 3 := h2
      rw [hidx] at h2'
      exact h2'
  · have hlen : (preShuffleTiles w h wrap seed).length = w * h := hinv.len
    rw [List.getD_eq_default _ _ (by omega)]
    exact ⟨by decide, by decide⟩

theorem new_game_tiles (p : GameParams) (seed : String) :
    (new_game p seed).tiles =
      (shufflePhase p.width p.height p.wrapping
        (genPhase p.width p.height p.wrapping seed).tiles
        (genPhase p.width p.height p.wrapping seed).rng).1 := rfl

/-- C8: on any board at least 3x3, no tile of the grid `new_game`
returns has all four direction bits set: the T-piece removal keeps every
generated connection count at 3 or below, and the shuffle only rotates
masks, preserving their bit counts. -/
theorem no_cross_c8 (p : GameParams) (hw : 2 < p.width) (hh : 2 < p.height)
    (seed : String) (i : ℕ) :
    ¬ ((new_game p seed).tiles.getD i 0 &&& 0x0F = 0x0F) := by
  have hpre := preShuffle_good hw hh p.wrapping seed
  have hg := shuffle_good p.width p.height p.wrapping
    (genPhase p.width p.height p.wrapping seed).tiles
    (genPhase p.width p.height p.wrapping seed).rng hpre
  rw [new_game_tiles]
  have h15 : ∀ t < 16, COUNT t ≤ 3 → ¬ (t &&& 0x0F = 0x0F) := by decide
  exact h15 _ (hg i).1 (hg i).2

/-! ## Termination of the construction loop

Each executing iteration turns the target cell's tile from 0 to a
nonzero mask and never zeroes a tile, so the number of blank cells
strictly decreases; the loop's fuel `w*h+1` therefore always suffices
to empty the possibility list. -/

/-- The number of blank tiles among the `w*h` cells. -/
def blanksF (w h : ℕ) (T : List ℕ) : ℕ :=
  ((Finset.range (w * h)).filter (fun i => T.getD i 0 = 0)).card

theorem blanks_exec {w h : ℕ} (hw : 3 ≤ w) (hh : 3 ≤ h) {wrap : Bool}
    {T : List ℕ} {P : List Xyd} (hinv : GenInv w h wrap T P)
    {i : ℕ} {e : Xyd} (hie : P[i]? = some e) :
    blanksF w h (execTiles w h T e) < blanksF w h T := by
  have heP : e ∈ P := mem_of_getElem_opt hie
  obtain ⟨hex, hey, hed⟩ := hinv.pvalid e heP
  have hc1v : validCell w h (e.x, e.y) := ⟨hex, hey⟩
  have hc2v : validCell w h (stepCell w h (e.x, e.y) e.d) :=
    stepCell_valid (by omega) (by omega) _ _
  have hT2zero : cellAt w T (stepCell w h (e.x, e.y) e.d) = 0 := by
    by_contra hne
    exact hinv.tgt e heP (Or.inl hne)
  have hc2c1 : stepCell w h (e.x, e.y) e.d ≠ (e.x, e.y) :=
    stepCell_ne_self hw hh hc1v hed
  have hT'c2 : cellAt w (execTiles w h T e)
      (stepCell w h (e.x, e.y) e.d) = F e.d := by
    rw [cellAt_execTiles hw hh hinv.len hex hey hed hc2v, if_neg hc2c1,
      if_pos rfl, hT2zero, Nat.zero_or]
  have hsub : bitsSubset T (execTiles w h T e) := bitsSubset_execTiles w h T e
  refine Finset.card_lt_card ?_
  constructor
  · intro j hj
    rw [Finset.mem_filter] at hj ⊢
    refine ⟨hj.1, ?_⟩
    have hs := hsub j
    rw [hj.2, Nat.or_zero] at hs
    exact hs
  · intro hcon
    have hjm : idx w (offX w e.x e.d) (offY h e.y e.d) ∈
        (Finset.range (w * h)).filter (fun j => T.getD j 0 = 0) := by
      rw [Finset.mem_filter]
      exact ⟨Finset.mem_range.2 (idx_lt hc2v), hT2zero⟩
    have hjm' := hcon hjm
    rw [Finset.mem_filter] at hjm'
    have : cellAt w (execTiles w h T e) (stepCell w h (e.x, e.y) e.d) = 0 :=
      hjm'.2
    rw [hT'c2] at this
    exact dir_ne_zero (F e.d) (F_mem_dirs hed) this

theorem random_upto_lt (r : Rng) {n : ℕ} (hn : 0 < n) :
    (random_upto r n).1 < n := Nat.mod_lt _ hn

theorem genStep_blanks_lt {w h : ℕ} (hw : 3 ≤ w) (hh : 3 ≤ h) {wrap : Bool}
    {s : GenSt} (hinv : GenInv w h wrap s.tiles s.poss) (hne : s.poss ≠ []) :
    blanksF w h (genStep w h wrap s).tiles < blanksF w h s.tiles := by
  have hlen : 0 < s.poss.length := List.length_pos.2 hne
  have hj : (random_upto s.rng s.poss.length).1 < s.poss.length :=
    random_upto_lt _ hlen
  obtain ⟨e, he⟩ : ∃ e, s.poss[(random_upto s.rng s.poss.length).1]? = some e := by
    rw [List.getElem?_eq_getElem hj]
    exact ⟨_, rfl⟩
  rw [genStep_eq, he, genStepGo_some, genExec_tiles]
  exact blanks_exec hw hh hinv he

theorem genLoop_empty {w h : ℕ} (hw : 3 ≤ w) (hh : 3 ≤ h) {wrap : Bool} :
    ∀ (f : ℕ) (s : GenSt), GenInv w h wrap s.tiles s.poss →
      blanksF w h s.tiles < f → (genLoop w h wrap f s).poss = [] := by
  intro f
  induction f with
  | zero =>
    intro s _ h0
    exact absurd h0 (Nat.not_lt_zero _)
  | succ n ih =>
    intro s hinv hlt
    rw [genLoop_succ]
    by_cases hemp : s.poss.isEmpty = true
    · rw [if_pos hemp]
      exact List.isEmpty_iff.1 hemp
    · rw [if_neg hemp]
      have hne : s.poss ≠ [] := fun hc => hemp (by rw [hc]; rfl)
      refine ih _ (genInv_step hw hh hinv) ?_
      have := genStep_blanks_lt hw hh hinv hne
      omega

/-- The construction loop's fuel always suffices: the phase ends with an
empty possibility list (the `assert(count234(possibilities) == 0)` of
net.c line 322). -/
theorem genPhase_poss_empty {w h : ℕ} (hw : 3 ≤ w) (hh : 3 ≤ h)
    (wrap : Bool) (seed : String) : (genPhase w h wrap seed).poss = [] := by
  show (genLoop w h wrap (w * h + 1) (initGen w h seed)).poss = []
  refine genLoop_empty hw hh (w * h + 1) _ (genInv_init hw hh wrap seed) ?_
  show blanksF w h (List.replicate (w * h) 0) < w * h + 1
  have h1 : blanksF w h (List.replicate (w * h) 0) ≤ w * h := by
    unfold blanksF
    calc ((Finset.range (w * h)).filter _).card ≤ (Finset.range (w * h)).card :=
        Finset.card_filter_le _ _
      _ = w * h := Finset.card_range _
  omega

/-! ## A used/unused boundary edge exists while some cell is unused -/

theorem exists_boundary_aux {w h : ℕ} (hw : 3 ≤ w) (hh : 3 ≤ h)
    (T : List ℕ) : ∀ (n : ℕ) (a v : Cell), validCell w h a →
    validCell w h v → usedP w h T a → ¬ usedP w h T v →
    (a.1 - v.1) + (v.1 - a.1) + (a.2 - v.2) + (v.2 - a.2) ≤ n →
    ∃ c d, validCell w h c ∧ d ∈ dirs ∧ legalDir w h c d ∧
      usedP w h T c ∧ ¬ usedP w h T (stepCell w h c d) := by
  intro n
  induction n with
  | zero =>
    intro a v hva hvv hua huv hd
    have hav : a = v := Prod.ext (by omega) (by omega)
    rw [hav] at hua
    exact absurd hua huv
  | succ n ih =>
    intro a v hva hvv hua huv hd
    obtain ⟨hax, hay⟩ := hva
    obtain ⟨hvx, hvy⟩ := hvv
    rcases Nat.lt_trichotomy a.1 v.1 with hlt | heq1 | hgt
    · have hleg : legalDir w h a 1 :=
        ⟨fun hc => absurd hc (by decide), fun hc => absurd hc (by decide),
          fun hc => absurd hc (by decide), fun _ => by omega⟩
      have hstep : stepCell w h a 1 = (a.1 + 1, a.2) := by
        show (offX w a.1 1, offY h a.2 1) = _
        rw [offX_one_eq hax, if_neg (by omega),
          offY_other (by decide) (by decide) hay]
      by_cases hu2 : usedP w h T (stepCell w h a 1)
      · rw [hstep] at hu2
        refine ih (a.1 + 1, a.2) v ⟨by omega, hay⟩ ⟨hvx, hvy⟩ hu2 huv ?_
        show (a.1 + 1 - v.1) + (v.1 - (a.1 + 1)) + (a.2 - v.2) +
          (v.2 - a.2) ≤ n
        omega
      · exact ⟨a, 1, ⟨hax, hay⟩, by decide, hleg, hua, hu2⟩
    · rcases Nat.lt_trichotomy a.2 v.2 with hlt2 | heq2 | hgt2
      · have hleg : legalDir w h a 8 :=
          ⟨fun hc => absurd hc (by decide), fun _ => by omega,
            fun hc => absurd hc (by decide), fun hc => absurd hc (by decide)⟩
        have hstep : stepCell w h a 8 = (a.1, a.2 + 1) := by
          show (offX w a.1 8, offY h a.2 8) = _
          rw [offY_eight_eq hay, if_neg (by omega),
            offX_other (by decide) (by decide) hax]
        by_cases hu2 : usedP w h T (stepCell w h a 8)
        · rw [hstep] at hu2
          refine ih (a.1, a.2 + 1) v ⟨hax, by omega⟩ ⟨hvx, hvy⟩ hu2 huv ?_
          show (a.1 - v.1) + (v.1 - a.1) + (a.2 + 1 - v.2) +
            (v.2 - (a.2 + 1)) ≤ n
          omega
        · exact ⟨a, 8, ⟨hax, hay⟩, by decide, hleg, hua, hu2⟩
      · exfalso
        rw [Prod.ext heq1 heq2] at hua
        exact huv hua
      · have hleg : legalDir w h a 2 :=
          ⟨fun _ => by omega, fun hc => absurd hc (by decide),
            fun hc => absurd hc (by decide), fun hc => absurd hc (by decide)⟩
        have hstep : stepCell w h a 2 = (a.1, a.2 - 1) := by
          show (offX w a.1 2, offY h a.2 2) = _
          rw [offY_two_eq hay, if_neg (by omega),
            offX_other (by decide) (by decide) hax]
        by_cases hu2 : usedP w h T (stepCell w h a 2)
        · rw [hstep] at hu2
          refine ih (a.1, a.2 - 1) v ⟨hax, by omega⟩ ⟨hvx, hvy⟩ hu2 huv ?_
          show (a.1 - v.1) + (v.1 - a.1) + (a.2 - 1 - v.2) +
            (v.2 - (a.2 - 1)) ≤ n
          omega
        · exact ⟨a, 2, ⟨hax, hay⟩, by decide, hleg, hua, hu2⟩
    · have hleg : legalDir w h a 4 :=
        ⟨fun hc => absurd hc (by decide), fun hc => absurd hc (by decide),
          fun _ => by omega, fun hc => absurd hc (by decide)⟩
      have hstep : stepCell w h a 4 = (a.1 - 1, a.2) := by
        show (offX w a.1 4, offY h a.2 4) = _
        rw [offX_four_eq hax, if_neg (by omega),
          offY_other (by decide) (by decide) hay]
      by_cases hu2 : usedP w h T (stepCell w h a 4)
      · rw [hstep] at hu2
        refine ih (a.1 - 1, a.2) v ⟨by omega, hay⟩ ⟨hvx, hvy⟩ hu2 huv ?_
        show (a.1 - 1 - v.1) + (v.1 - (a.1 - 1)) + (a.2 - v.2) +
          (v.2 - a.2) ≤ n
        omega
      · exact ⟨a, 4, ⟨hax, hay⟩, by decide, hleg, hua, hu2⟩

/-- While some valid cell is unused, some legal edge leads from a used
cell to an unused one. -/
theorem exists_boundary {w h : ℕ} (hw : 3 ≤ w) (hh : 3 ≤ h) (T : List ℕ)
    {v : Cell} (hv : validCell w h v) (hunused : ¬ usedP w h T v) :
    ∃ c d, validCell w h c ∧ d ∈ dirs ∧ legalDir w h c d ∧
      usedP w h T c ∧ ¬ usedP w h T (stepCell w h c d) :=
  exists_boundary_aux hw hh T _ (ctr w h) v (ctr_valid hw hh) hv
    (Or.inr rfl) hunused (Nat.le_refl _)

/-- Witness for `no_cross_c8`: the 3x3 seed-"123" board, index 0. -/
theorem no_cross_c8_witness :
    2 < (⟨3, 3, false, 0⟩ : GameParams).width ∧
      2 < (⟨3, 3, false, 0⟩ : GameParams).height ∧
      ¬ ((new_game ⟨3, 3, false, 0⟩ "123").tiles.getD 0 0 &&& 0x0F = 0x0F) :=
  ⟨by decide, by decide,
    no_cross_c8 ⟨3, 3, false, 0⟩ (by decide) (by decide) "123" 0⟩

end Net
